import Mathlib

/-!
Verification of the tirekwp package: a prefix tree (trie) over weighted
keywords, where every node caches a bounded ordered set of the best
keywords of its subtree, so that prefix queries return ranked results.

Go strings are modelled as lists of byte values.  The rune decoding of
a Go string (the conversion to a rune slice) is modelled faithfully,
including the replacement-character behaviour on invalid UTF-8 input.
Machine integers (the Go int type) are modelled as Int, with the wrap
around of 64-bit subtraction made explicit where the source relies on
it (the keyword comparator).

The per-node ordered container (orderedmap.Any, realized in the source
by a red-black tree whose internals the specification scopes out) is
modelled by its contract: a list kept in ascending comparator order in
which Put is identity on a comparator-equal key, Keys returns the list,
and PopMax removes the last (comparator-greatest) element.

Functions that can panic in Go (out-of-bounds index, nil dereference)
are modelled as Option-valued functions returning none at a panic.
-/

/-! ### Go strings and UTF-8 decoding -/

/-- A Go string: a list of byte values (each below 256). -/
abbrev GoStr := List Nat

/-- Is b a UTF-8 continuation byte, in the range 0x80 to 0xBF. -/
def contB (b : Nat) : Bool := 0x80 ≤ b && b ≤ 0xBF

/-- Acceptable second byte of a three-byte UTF-8 sequence led by b0,
following the Go utf8 acceptRanges table. -/
def accept3 (b0 b1 : Nat) : Bool :=
  (b0 == 0xE0 && 0xA0 ≤ b1 && b1 ≤ 0xBF) ||
  (0xE1 ≤ b0 && b0 ≤ 0xEC && contB b1) ||
  (b0 == 0xED && 0x80 ≤ b1 && b1 ≤ 0x9F) ||
  (0xEE ≤ b0 && b0 ≤ 0xEF && contB b1)

/-- Acceptable second byte of a four-byte UTF-8 sequence led by b0,
following the Go utf8 acceptRanges table. -/
def accept4 (b0 b1 : Nat) : Bool :=
  (b0 == 0xF0 && 0x90 ≤ b1 && b1 ≤ 0xBF) ||
  (0xF1 ≤ b0 && b0 ≤ 0xF3 && contB b1) ||
  (b0 == 0xF4 && 0x80 ≤ b1 && b1 ≤ 0x8F)

/-- The Unicode replacement character U+FFFD produced by the Go decoder
on invalid input. -/
def runeError : Nat := 0xFFFD

/-- Fuel-indexed decoding of a Go string to its rune sequence.  The
fuel argument only drives structural recursion; whenever it is at least
the length of the string the result is the full decoding.  Each step
decodes one rune following utf8.DecodeRuneInString, emitting U+FFFD and
consuming one byte on invalid input. -/
def runesF : Nat → GoStr → List Nat
  | _, [] => []
  | 0, _ :: _ => []
  | f + 1, b0 :: t =>
    if b0 < 0x80 then b0 :: runesF f t
    else if b0 < 0xC2 then runeError :: runesF f t
    else if b0 ≤ 0xDF then
      match t with
      | b1 :: t1 =>
        if contB b1 then ((b0 - 0xC0) * 64 + (b1 - 0x80)) :: runesF f t1
        else runeError :: runesF f t
      | [] => [runeError]
    else if b0 ≤ 0xEF then
      match t with
      | b1 :: b2 :: t2 =>
        if accept3 b0 b1 && contB b2 then
          ((b0 - 0xE0) * 4096 + (b1 - 0x80) * 64 + (b2 - 0x80)) :: runesF f t2
        else runeError :: runesF f t
      | _ => runeError :: runesF f t
    else if b0 ≤ 0xF4 then
      match t with
      | b1 :: b2 :: b3 :: t3 =>
        if accept4 b0 b1 && contB b2 && contB b3 then
          ((b0 - 0xF0) * 262144 + (b1 - 0x80) * 4096 + (b2 - 0x80) * 64
            + (b3 - 0x80)) :: runesF f t3
        else runeError :: runesF f t
      | _ => runeError :: runesF f t
    else runeError :: runesF f t

/-- Decoding of a Go string to its rune sequence, as performed by the
Go conversion from string to a rune slice. -/
def runes (s : GoStr) : List Nat := runesF s.length s

/-- UTF-8 encoding of a single rune, as performed by Go when a rune
slice is converted back to a string; invalid scalar values encode as
the replacement character. -/
def encodeRune (r : Nat) : List Nat :=
  if r < 0x80 then [r]
  else if r < 0x800 then [0xC0 + r / 64, 0x80 + r % 64]
  else if r < 0x10000 then
    if 0xD800 ≤ r && r ≤ 0xDFFF then [0xEF, 0xBF, 0xBD]
    else [0xE0 + r / 4096, 0x80 + r / 64 % 64, 0x80 + r % 64]
  else if r ≤ 0x10FFFF then
    [0xF0 + r / 262144, 0x80 + r / 4096 % 64, 0x80 + r / 64 % 64, 0x80 + r % 64]
  else [0xEF, 0xBF, 0xBD]

/-- UTF-8 encoding of a rune sequence. -/
def encodeRunes (rs : List Nat) : List Nat := (rs.map encodeRune).flatten

/-- A Go string is valid UTF-8 exactly when re-encoding its decoded
rune sequence reproduces it byte for byte. -/
def ValidUTF8 (s : GoStr) : Prop := encodeRunes (runes s) = s

instance (s : GoStr) : Decidable (ValidUTF8 s) := by
  unfold ValidUTF8; infer_instance

/-- A Unicode scalar value: a code point that is not a surrogate and is
at most 0x10FFFF. -/
def Scalar (r : Nat) : Prop := r < 0xD800 ∨ (0xE000 ≤ r ∧ r ≤ 0x10FFFF)

/-! ### Keywords and the compound comparator -/

/-- The byte-wise three-way string comparison strings.Compare of Go,
returning -1, 0 or 1. -/
def strCompare : GoStr → GoStr → Int
  | [], [] => 0
  | [], _ :: _ => -1
  | _ :: _, [] => 1
  | a :: s, b :: t => if a < b then -1 else if b < a then 1 else strCompare s t

/-- Wrap-around of 64-bit signed integer arithmetic: the Go int value
obtained from the mathematical integer z. -/
def wrap64 (z : Int) : Int := (z + 2 ^ 63) % 2 ^ 64 - 2 ^ 63

/-- A stored keyword: its weight, its original byte string Str, and its
decoded rune sequence str used for tree navigation. -/
structure Keyword where
  Weight : Int
  Str : GoStr
  str : List Nat
deriving DecidableEq, Repr

/-- The compound comparator of the source: equal strings compare equal;
otherwise a larger weight compares smaller (so that higher weights sort
first); with equal weights, the byte-wise smaller string compares
smaller.  The weight difference is computed in wrapping 64-bit
arithmetic, as in the Go source. -/
def Keyword.cmp (k1 k2 : Keyword) : Int :=
  let c := strCompare k1.Str k2.Str
  if c = 0 then 0
  else if k1.Weight ≠ k2.Weight then wrap64 (k2.Weight - k1.Weight)
  else c

/-! ### The ordered top-K container of each node -/

/-- Insertion into the ascending ordered key list of the per-node
ordered map: if a comparator-equal key is present the list is unchanged
(the source replaces only the attached value, which is always nil),
otherwise the key is placed at its ordered position. -/
def omPut (k : Keyword) : List Keyword → List Keyword
  | [] => [k]
  | a :: rest =>
    if k.cmp a = 0 then a :: rest
    else if k.cmp a < 0 then k :: a :: rest
    else a :: omPut k rest

/-- The adjustSorted step of the source: insert the keyword, then drop
the comparator-greatest element when the bound maxLen is exceeded. -/
def adjustSorted (k : Keyword) (maxLen : Int) (ks : List Keyword) : List Keyword :=
  let ks' := omPut k ks
  if (ks'.length : Int) > maxLen then ks'.dropLast else ks'

/-! ### Tree nodes and the index -/

/-- A node of the prefix tree: the optional owned keyword, the children
as an association list from rune to child (the Go map, order
irrelevant), and the cached ordered keyword list. -/
inductive Node : Type where
  | mk : Option Keyword → List (Nat × Node) → List Keyword → Node

/-- The owned keyword of a node. -/
def Node.key : Node → Option Keyword
  | .mk k _ _ => k

/-- The children of a node. -/
def Node.next : Node → List (Nat × Node)
  | .mk _ c _ => c

/-- The cached ordered keyword list of a node. -/
def Node.sorted : Node → List Keyword
  | .mk _ _ s => s

/-- Lookup in the children association list, the Go map read. -/
def lookupA (c : Nat) : List (Nat × Node) → Option Node
  | [] => none
  | (c', n) :: rest => if c' = c then some n else lookupA c rest

/-- Store in the children association list, the Go map write: replace
the entry when the rune is present, otherwise append the new entry. -/
def insertA (c : Nat) (n : Node) : List (Nat × Node) → List (Nat × Node)
  | [] => [(c, n)]
  | (c', n') :: rest =>
    if c' = c then (c, n) :: rest else (c', n') :: insertA c n rest

/-- The newNode constructor of the source: the sorted list of a node
created for a keyword is seeded with that keyword. -/
def newNode (key : Option Keyword) : Node :=
  Node.mk key [] (match key with | some k => [k] | none => [])

/-- The index: root node, the capacity maxSortedLen, the keyword count
len and the node count nNodes. -/
structure TireKWP where
  root : Node
  maxSortedLen : Int
  len : Int
  nNodes : Int

/-- The New constructor of the source: an empty index with one node.
No validation of the capacity is performed by the source. -/
def TireKWP.New (maxSortedLen : Int) : TireKWP :=
  { root := newNode none, maxSortedLen := maxSortedLen, len := 0, nNodes := 1 }

/-! ### The descent shared by Get and the duplicate check of Put -/

/-- Equality of the rune lists q and kcp on all positions from pos up
to the length of q, as checked by the verification loops of the get
descent.  An out-of-range read is a Go panic; on states reachable by
the operations these reads are in bounds. -/
def eqFrom (q kcp : List Nat) (pos : Nat) : Bool :=
  (List.range' pos (q.length - pos)).all fun i => q.getD i 0 == kcp.getD i 0

/-- The descent loop of the get method of the source.  The Nat argument
is the number of unconsumed runes of q, so the current position is the
length of q minus it; the loop walks children, except that reaching a
node with no children succeeds exactly when its keyword covers the
remainder of q. -/
def getNode (q : List Nat) : Nat → Node → Option Node
  | 0, now => some now
  | rem + 1, now =>
    let pos := q.length - (rem + 1)
    if now.next.isEmpty then
      match now.key with
      | some k =>
        if q.length ≤ k.str.length && eqFrom q k.str pos then some now else none
      | none => none
    else
      match lookupA (q.getD pos 0) now.next with
      | none => none
      | some ch => getNode q rem ch

/-- The get method of the source: descend along q, then verify that the
keyword of the final node, when present, starts with q. -/
def TireKWP.get (t : TireKWP) (q : List Nat) : Option Node :=
  match getNode q q.length t.root with
  | none => none
  | some now =>
    match now.key with
    | some k => if eqFrom q k.str 0 then some now else none
    | none => some now

/-! ### Insertion -/

/-- The fork handling of case 2 of the put loop of the source: the
current node is a childless node owning keyword k2, and the new keyword
(key) still has unconsumed runes.  Matching runes of key and k2 are
consumed one chain node at a time, then the two keywords are split.
The Nat argument is the number of unconsumed runes of key, so the
current position pos is the length of key minus it.  Returns the
rebuilt node and the number of allocated nodes, or none where the Go
source panics (an index k2.str at pos out of bounds). -/
def splitChain (key k2 : Keyword) (maxLen : Int) : Nat → Node → Option (Node × Nat)
  | 0, cur =>
    -- pos equals the length of key: case 2.1, key is exhausted first.
    let pos := key.str.length
    if pos < k2.str.length then
      some (Node.mk (some key)
        (insertA (k2.str.getD pos 0) (newNode (some k2)) cur.next)
        (adjustSorted k2 maxLen (adjustSorted key maxLen cur.sorted)), 1)
    else none
  | rem + 1, cur =>
    let pos := key.str.length - (rem + 1)
    if pos < k2.str.length ∧ key.str.getD pos 0 = k2.str.getD pos 0 then
      -- matching rune: allocate a chain node and continue below it.
      match splitChain key k2 maxLen rem (newNode none) with
      | none => none
      | some (inner, cnt) =>
        some (Node.mk none
          (insertA (key.str.getD pos 0) inner cur.next)
          (adjustSorted k2 maxLen (adjustSorted key maxLen cur.sorted)), cnt + 1)
    else if pos = k2.str.length then
      -- case 2.2: k2 is exhausted first and stays at the split point.
      some (Node.mk (some k2)
        (insertA (key.str.getD pos 0) (newNode (some key)) cur.next)
        (adjustSorted key maxLen (adjustSorted k2 maxLen cur.sorted)), 1)
    else if pos < k2.str.length then
      -- case 2.3: both keywords continue with different runes.
      some (Node.mk none
        (insertA (k2.str.getD pos 0) (newNode (some k2))
          (insertA (key.str.getD pos 0) (newNode (some key)) cur.next))
        (adjustSorted k2 maxLen (adjustSorted key maxLen
          (adjustSorted k2 maxLen (adjustSorted key maxLen cur.sorted)))), 2)
    else none

/-- One iteration of the put loop of the source at the current node.
The Nat argument is the number of unconsumed runes of key, so the
current position pos is the length of key minus it; zero unconsumed
runes is case 1 of the source (key traversal complete).  Returns the
rebuilt node and the number of allocated nodes, or none where the Go
source panics. -/
def putNode (key : Keyword) (maxLen : Int) : Nat → Node → Option (Node × Nat)
  | 0, now =>
    -- case 1: store key at this node, pushing an owned keyword down.
    match now.key with
    | some k2 =>
      if key.str.length < k2.str.length then
        some (Node.mk (some key)
          (insertA (k2.str.getD key.str.length 0) (newNode (some k2)) now.next)
          (adjustSorted key maxLen now.sorted), 1)
      else none
    | none =>
      some (Node.mk (some key) now.next (adjustSorted key maxLen now.sorted), 0)
  | rem + 1, now =>
    let pos := key.str.length - (rem + 1)
    if now.next.isEmpty then
      -- case 2: the current node is childless and owns a keyword.
      match now.key with
      | none => none
      | some k2 => splitChain key k2 maxLen (rem + 1) now
    else
      match lookupA (key.str.getD pos 0) now.next with
      | none =>
        -- case 3, no child on the next rune: attach a new leaf.
        some (Node.mk now.key
          (insertA (key.str.getD pos 0) (newNode (some key)) now.next)
          (adjustSorted key maxLen now.sorted), 1)
      | some child =>
        -- case 3, child present: adjust and descend.
        match putNode key maxLen rem child with
        | none => none
        | some (child', cnt) =>
          some (Node.mk now.key
            (insertA (key.str.getD pos 0) child' now.next)
            (adjustSorted key maxLen now.sorted), cnt)

/-- The put method of the source (insertion of a keyword known not to
be stored): handle the root child directly, then run the loop. -/
def TireKWP.putK (t : TireKWP) (key : Keyword) : Option TireKWP :=
  match key.str with
  | [] => none
  | c0 :: _ =>
    match lookupA c0 t.root.next with
    | none =>
      some { t with
        root := Node.mk t.root.key
          (insertA c0 (newNode (some key)) t.root.next)
          (adjustSorted key t.maxSortedLen t.root.sorted),
        nNodes := t.nNodes + 1 }
    | some child =>
      match putNode key t.maxSortedLen (key.str.length - 1) child with
      | none => none
      | some (child', cnt) =>
        some { t with
          root := Node.mk t.root.key
            (insertA c0 child' t.root.next)
            (adjustSorted key t.maxSortedLen t.root.sorted),
          nNodes := t.nNodes + cnt }

/-- The Put method of the source: panic (none) on an empty string,
decode the runes, return unchanged when the duplicate fast-path finds a
node owning a keyword whose byte length equals that of the input,
otherwise insert and increment the keyword count. -/
def TireKWP.Put (t : TireKWP) (s : GoStr) (w : Int) : Option TireKWP :=
  if s.length = 0 then none
  else
    let cp := runes s
    if cp.length = 0 then none
    else
      let key : Keyword := { Weight := w, Str := s, str := cp }
      match t.get cp with
      | some n =>
        match n.key with
        | some k2 =>
          if k2.Str.length = s.length then some t
          else (t.putK key).map fun t' => { t' with len := t'.len + 1 }
        | none => (t.putK key).map fun t' => { t' with len := t'.len + 1 }
      | none => (t.putK key).map fun t' => { t' with len := t'.len + 1 }

/-! ### Queries -/

/-- The Get method of the source: the root snapshot for the empty
query, otherwise the snapshot of the node found by get, mapped to the
original strings. -/
def TireKWP.Get (t : TireKWP) (s : GoStr) : List GoStr :=
  if s = [] then t.root.sorted.map Keyword.Str
  else
    match t.get (runes s) with
    | some n => n.sorted.map Keyword.Str
    | none => []

/-- The Len method of the source: the stored keyword count. -/
def TireKWP.Len (t : TireKWP) : Int := t.len

/-- The Count method of the source: the node count. -/
def TireKWP.Count (t : TireKWP) : Int := t.nNodes

/-! ### Reachable states -/

/-- States reachable from New M by successful Puts whose string and
weight satisfy the predicate P. -/
inductive ReachP (M : Int) (P : GoStr → Int → Prop) : TireKWP → Prop where
  | new : ReachP M P (TireKWP.New M)
  | put {t t' : TireKWP} {s : GoStr} {w : Int} :
      ReachP M P t → P s w → t.Put s w = some t' → ReachP M P t'

/-- States reachable from New M by arbitrary successful Puts. -/
def Reach (M : Int) (t : TireKWP) : Prop := ReachP M (fun _ _ => True) t

/-! ### Observation helpers used to state properties -/

mutual

/-- The keywords stored in the subtree of a node: its owned keyword, if
any, followed by the keywords of all children. -/
def Node.subKWs : Node → List Keyword
  | .mk k c _ => k.toList ++ subKWsList c

/-- The keywords stored in a list of children. -/
def subKWsList : List (Nat × Node) → List Keyword
  | [] => []
  | (_, n) :: rest => n.subKWs ++ subKWsList rest

end

/-- The node of a tree reached by following children along a rune path. -/
def nodeAt : Node → List Nat → Option Node
  | n, [] => some n
  | n, c :: p =>
    match lookupA c n.next with
    | some ch => nodeAt ch p
    | none => none

/-- The index state that results from putting the one-byte string a
with weight 1 into an empty index of capacity 3; used as a concrete
witness state. -/
def exS1 : TireKWP :=
  { root := Node.mk none
      [(97, Node.mk (some { Weight := 1, Str := [97], str := [97] }) []
        [{ Weight := 1, Str := [97], str := [97] }])]
      [{ Weight := 1, Str := [97], str := [97] }],
    maxSortedLen := 3, len := 1, nNodes := 2 }

/-- Sequencing of several Put calls, failing if any one fails. -/
def putList (t : TireKWP) : List (GoStr × Int) → Option TireKWP
  | [] => some t
  | (s, w) :: rest =>
    match t.Put s w with
    | some t' => putList t' rest
    | none => none

/-- The mathematical compound strict order of the specification on
keywords: larger weight first, then byte-wise smaller string first. -/
def kwLT (k1 k2 : Keyword) : Prop :=
  k2.Weight < k1.Weight ∨ (k1.Weight = k2.Weight ∧ strCompare k1.Str k2.Str < 0)

instance (k1 k2 : Keyword) : Decidable (kwLT k1 k2) := by
  unfold kwLT; infer_instance

/-- The reflexive closure of the compound order, as a Boolean. -/
def kwLEb (k1 k2 : Keyword) : Bool :=
  decide (k2.Weight < k1.Weight) ||
    (decide (k1.Weight = k2.Weight) && decide (strCompare k1.Str k2.Str ≤ 0))

/-- Ordered insertion for the specification-side insertion sort. -/
def insertLE (a : Keyword) : List Keyword → List Keyword
  | [] => [a]
  | b :: rest => if kwLEb a b then a :: b :: rest else b :: insertLE a rest

/-- Insertion sort of keywords by the compound order of the
specification. -/
def sortKW : List Keyword → List Keyword
  | [] => []
  | a :: rest => insertLE a (sortKW rest)

/-- The first min(M, length) keywords of a collection under the
compound order of the specification: the expected content of a top-K
snapshot. -/
def topBy (M : Int) (ks : List Keyword) : List Keyword :=
  (sortKW ks).take M.toNat

/-- Weights small enough that no comparator subtraction can wrap
around 64-bit arithmetic when all stored weights satisfy the bound. -/
def WSmall (k : Keyword) : Prop := -2 ^ 62 ≤ k.Weight ∧ k.Weight < 2 ^ 62

/-- A well-formed keyword as constructed by Put: the rune field is the
decoding of the string field, and it is non-empty. -/
def KwWF (k : Keyword) : Prop := k.str = runes k.Str ∧ k.str ≠ []

mutual

/-- Every cached keyword list in the tree rooted at this node has at
most M elements. -/
def nodeBnd (M : Int) : Node → Prop
  | .mk _ next sorted => (sorted.length : Int) ≤ M ∧ nodeBndL M next

/-- The bound nodeBnd for every child of a children list. -/
def nodeBndL (M : Int) : List (Nat × Node) → Prop
  | [] => True
  | (_, n) :: rest => nodeBnd M n ∧ nodeBndL M rest

end

/-- All keywords of a list have weights in the no-overflow range. -/
def WSmallL (ks : List Keyword) : Prop := ∀ k ∈ ks, WSmall k

/-- The top-K characterization: s is an ascending compound-order list
of members of S whose length is min(M, |S|), and every member of S is
either in s or dominated by every element of s. -/
def TopOK (M : Int) (s S : List Keyword) : Prop :=
  List.Pairwise kwLT s ∧ (∀ k ∈ s, k ∈ S) ∧ s.length = min M.toNat S.length ∧
    (∀ k ∈ S, k ∈ s ∨ ∀ j ∈ s, kwLT j k)

mutual

/-- The structural and ranking invariant of a non-root node sitting at
rune path p: an owned keyword is well formed, extends the path, and
terminates exactly at the node when the node has children; a node
without an owned keyword has children; the cached list is a top-K set
of the subtree keywords whenever all weights are in the no-overflow
range; children carry distinct runes and satisfy the invariant at their
extended paths. -/
def SInv (M : Int) (p : List Nat) : Node → Prop
  | .mk key next sorted =>
    (match key with
     | some k => KwWF k ∧ p <+: k.str ∧ (next ≠ [] → k.str.length = p.length)
     | none => next ≠ [])
    ∧ (WSmallL (Node.mk key next sorted).subKWs →
        TopOK M sorted (Node.mk key next sorted).subKWs)
    ∧ List.Pairwise (fun a b : Nat × Node => a.1 ≠ b.1) next
    ∧ SInvL M p next

/-- The invariant for a list of children of a node at path p. -/
def SInvL (M : Int) (p : List Nat) : List (Nat × Node) → Prop
  | [] => True
  | (c, n) :: rest =>
    (SInv M (p ++ [c]) n ∧ (∀ k ∈ n.subKWs, (p ++ [c]) <+: k.str)) ∧ SInvL M p rest

end

/-- The invariant of a whole index with capacity M: the root owns no
keyword, its children satisfy the node invariant, the root cache is a
top-K set of all stored keywords under bounded weights, and the keyword
counter equals the number of stored keywords. -/
def RootInv (M : Int) (t : TireKWP) : Prop :=
  t.maxSortedLen = M ∧ t.root.key = none ∧
    List.Pairwise (fun a b : Nat × Node => a.1 ≠ b.1) t.root.next ∧
    SInvL M [] t.root.next ∧
    (WSmallL t.root.subKWs → TopOK M t.root.sorted t.root.subKWs) ∧
    t.len = (t.root.subKWs.length : Int)

/-! ## Basic lemmas about the embedded operations -/

theorem runesF_cons_ex (f b : Nat) (t : GoStr) :
    ∃ r rs, runesF (f + 1) (b :: t) = r :: rs := by
  simp only [runesF]
  repeat' split
  all_goals exact ⟨_, _, rfl⟩

theorem runesF_cons_ne_nil (f b : Nat) (t : GoStr) : runesF (f + 1) (b :: t) ≠ [] := by
  obtain ⟨r, rs, h⟩ := runesF_cons_ex f b t
  simp [h]

theorem runes_cons_ne_nil (b : Nat) (t : GoStr) : runes (b :: t) ≠ [] := by
  unfold runes
  simpa using runesF_cons_ne_nil t.length b t

theorem runes_ne_nil {s : GoStr} (h : s ≠ []) : runes s ≠ [] := by
  cases s with
  | nil => exact absurd rfl h
  | cons b t => exact runes_cons_ne_nil b t

theorem eqFrom_self (q : List Nat) (pos : Nat) : eqFrom q q pos = true := by
  unfold eqFrom
  simp [List.all_eq_true]

theorem lookupA_insertA_self (c : Nat) (n : Node) (l : List (Nat × Node)) :
    lookupA c (insertA c n l) = some n := by
  induction l with
  | nil => simp [insertA, lookupA]
  | cons hd rest ih =>
    obtain ⟨c', n'⟩ := hd
    by_cases h : c' = c
    · simp [insertA, h, lookupA]
    · simp [insertA, h, lookupA, ih]

theorem lookupA_insertA_ne {c c' : Nat} (n : Node) (l : List (Nat × Node)) (h : c' ≠ c) :
    lookupA c' (insertA c n l) = lookupA c' l := by
  induction l with
  | nil => simp [insertA, lookupA, Ne.symm h]
  | cons hd rest ih =>
    obtain ⟨c0, n0⟩ := hd
    by_cases h0 : c0 = c
    · subst h0
      simp [insertA, lookupA, h, Ne.symm h]
    · simp [insertA, h0, lookupA, ih]

theorem insertA_ne_nil (c : Nat) (n : Node) (l : List (Nat × Node)) : insertA c n l ≠ [] := by
  cases l with
  | nil => simp [insertA]
  | cons hd rest =>
    obtain ⟨c', n'⟩ := hd
    by_cases h : c' = c <;> simp [insertA, h]

/-! ## Claim C7: construction -/

/-- Claim C7 counterexample.  The claim states that New fails hard when
M is below one; in fact the source performs no validation at all, and
New with a negative capacity succeeds and returns an empty index. -/
theorem C7_counterexample :
    (TireKWP.New (-5)).Len = 0 ∧ (TireKWP.New (-5)).Count = 1 ∧
      (TireKWP.New (-5)).maxSortedLen = -5 ∧ (TireKWP.New (-5)).Get [] = [] :=
  ⟨rfl, rfl, rfl, rfl⟩

/-- Claim C7 as amended: New performs no capacity validation; for every
M, including M below one, it returns an empty index (no stored
keywords, one node, empty answer to every query). -/
theorem C7_thm (M : Int) :
    (TireKWP.New M).Len = 0 ∧ (TireKWP.New M).Count = 1 ∧
      (TireKWP.New M).maxSortedLen = M ∧ ∀ q : GoStr, (TireKWP.New M).Get q = [] := by
  refine ⟨rfl, rfl, rfl, fun q => ?_⟩
  cases q with
  | nil => rfl
  | cons b t =>
    obtain ⟨r, rs, hq⟩ := List.exists_cons_of_ne_nil (runes_cons_ne_nil b t)
    simp [TireKWP.Get, TireKWP.get, hq, getNode, TireKWP.New, newNode, Node.next, Node.key]

/-! ## Claim C8: the comparator and weight order -/

theorem wrap64_eq_self {z : Int} (h1 : -2 ^ 63 ≤ z) (h2 : z < 2 ^ 63) : wrap64 z = z := by
  unfold wrap64
  rw [Int.emod_eq_of_lt (by omega) (by omega)]
  omega

theorem strCompare_swap (s t : GoStr) : strCompare t s = -strCompare s t := by
  induction s generalizing t with
  | nil => cases t <;> simp [strCompare]
  | cons a s ih =>
    cases t with
    | nil => simp [strCompare]
    | cons b t =>
      simp only [strCompare]
      rcases Nat.lt_trichotomy a b with hab | hab | hab
      · rw [if_neg (by omega : ¬ b < a), if_pos hab, if_pos hab]
        decide
      · rw [if_neg (by omega : ¬ b < a), if_neg (by omega : ¬ a < b),
          if_neg (by omega : ¬ a < b), if_neg (by omega : ¬ b < a)]
        exact ih t
      · rw [if_pos hab, if_neg (by omega : ¬ a < b), if_pos hab]

/-- Claim C8 counterexample.  The comparator computes the weight
difference with wrapping 64-bit subtraction, so for weights whose
difference overflows, the keyword with the larger weight compares
greater instead of smaller: here the first keyword has the larger
weight (2 to the 63 minus 1 versus -2) and distinct strings, yet the
comparator returns a positive value. -/
theorem C8_counterexample :
    0 < Keyword.cmp { Weight := 2 ^ 63 - 1, Str := [97], str := [97] }
        { Weight := -2, Str := [98], str := [98] } := by decide

/-- Claim C8 as amended: for keywords with byte-wise distinct strings
and distinct weights, the keyword with the larger weight compares
smaller (sorts first), provided the weight difference does not overflow
the 64-bit subtraction, that is, it lies strictly above -2 to the 63. -/
theorem C8_thm (k1 k2 : Keyword) (hs : strCompare k1.Str k2.Str ≠ 0)
    (hw : k2.Weight < k1.Weight) (hd : -2 ^ 63 < k2.Weight - k1.Weight) :
    k1.cmp k2 < 0 ∧ 0 < k2.cmp k1 := by
  have hs' : strCompare k2.Str k1.Str ≠ 0 := by
    rw [strCompare_swap k1.Str k2.Str]
    omega
  constructor
  · unfold Keyword.cmp
    rw [if_neg hs, if_pos (by omega)]
    rw [wrap64_eq_self (by omega) (by omega)]
    omega
  · unfold Keyword.cmp
    rw [if_neg hs', if_pos (by omega)]
    rw [wrap64_eq_self (by omega) (by omega)]
    omega

/-- Claim C8 witness: the amended comparator property applied to the
concrete keywords with weights 5 and 3. -/
theorem C8_witness :
    Keyword.cmp { Weight := 5, Str := [97], str := [97] }
        { Weight := 3, Str := [98], str := [98] } < 0 ∧
      0 < Keyword.cmp { Weight := 3, Str := [98], str := [98] }
        { Weight := 5, Str := [97], str := [97] } :=
  C8_thm { Weight := 5, Str := [97], str := [97] }
    { Weight := 3, Str := [98], str := [98] } (by decide) (by decide) (by decide)

/-! ## Counterexamples for claims C1 to C5 -/

/-- Claim C1 counterexample.  After storing string a with weight 2 to
the 63 minus 1 and string b with weight -2, the empty-prefix query
returns b before a, while the top-2 under the compound order (weight
descending) is a before b: the comparator overflow breaks the claimed
output order. -/
theorem C1_counterexample :
    (putList (TireKWP.New 3) [([97], 2 ^ 63 - 1), ([98], -2)]).map
        (fun t => t.Get []) = some [[98], [97]] ∧
      (topBy 3 [{ Weight := 2 ^ 63 - 1, Str := [97], str := [97] },
        { Weight := -2, Str := [98], str := [98] }]).map Keyword.Str = [[97], [98]] :=
  ⟨rfl, rfl⟩

/-- Claim C2 counterexample.  In the same overflow scenario, the root
node stores both keywords in its subtree, but its cached snapshot lists
them in the wrong order compared to the compound-comparator sort. -/
theorem C2_counterexample :
    (putList (TireKWP.New 3) [([97], 2 ^ 63 - 1), ([98], -2)]).map
        (fun t => (t.root.sorted.map Keyword.Str, t.root.subKWs.map Keyword.Str))
      = some ([[98], [97]], [[97], [98]]) ∧
      (topBy 3 [{ Weight := 2 ^ 63 - 1, Str := [97], str := [97] },
        { Weight := -2, Str := [98], str := [98] }]).map Keyword.Str = [[97], [98]] :=
  ⟨rfl, rfl⟩

/-- Claim C3 counterexample.  The byte strings 255 and 254 differ
byte-for-byte, but both decode to the replacement character, so the
duplicate fast-path (which compares byte lengths only) treats the
second Put as a duplicate: the keyword count stays 1 instead of the
claimed 2. -/
theorem C3_counterexample :
    (((TireKWP.New 3).Put [255] 1).bind fun t => t.Put [254] 2).map TireKWP.Len
      = some 1 := rfl

/-- Claim C4 counterexample.  The byte string 233 is invalid UTF-8 and
decodes to the replacement character; the string 239 191 189 is its
valid encoding.  Inserting them in this order drives the insertion walk
to a node owning a keyword whose rune sequence has length equal to pos,
so the push-down access is out of bounds and Put fails (a Go panic,
modelled as none). -/
theorem C4_counterexample :
    (((TireKWP.New 3).Put [233] 1).bind fun t => t.Put [239, 191, 189] 2) = none := rfl

/-- Claim C5 counterexample.  After storing strings ab and ac, the node
at path a is Empty-internal (no key, two children); a further Put of
string a stores its keyword at that node, so an Empty-internal node
does gain a key, contradicting the claim. -/
theorem C5_counterexample :
    (putList (TireKWP.New 3) [([97, 98], 1), ([97, 99], 1)]).map
        (fun t => (nodeAt t.root [97]).map fun n => (n.key, n.next.isEmpty))
      = some (some (none, false)) ∧
      (putList (TireKWP.New 3) [([97, 98], 1), ([97, 99], 1), ([97], 1)]).map
        (fun t => (nodeAt t.root [97]).map fun n => n.key)
      = some (some (some { Weight := 1, Str := [97], str := [97] })) :=
  ⟨rfl, rfl⟩

/-! ## Claim C6: idempotent Put -/

theorem insertA_isEmpty (c : Nat) (n : Node) (l : List (Nat × Node)) :
    (insertA c n l).isEmpty = false := by
  cases l with
  | nil => rfl
  | cons hd rest =>
    obtain ⟨c', n'⟩ := hd
    by_cases h : c' = c <;> simp [insertA, h]

theorem getNode_newNode_self (key : Keyword) :
    ∀ r, getNode key.str r (newNode (some key)) = some (newNode (some key)) := by
  intro r
  cases r with
  | zero => rfl
  | succ r =>
    simp [getNode, newNode, Node.next, Node.key, eqFrom_self]

theorem getNode_splitChain (key k2 : Keyword) (M : Int) :
    ∀ rem cur now' cnt, splitChain key k2 M rem cur = some (now', cnt) →
      ∃ m, getNode key.str rem now' = some m ∧ m.key = some key := by
  intro rem
  induction rem with
  | zero =>
    intro cur now' cnt h
    simp only [splitChain] at h
    split at h
    · rw [Option.some_inj] at h
      obtain ⟨h1, _⟩ := Prod.mk.injEq .. ▸ h
      refine ⟨now', rfl, ?_⟩
      rw [← h1]
      rfl
    · cases h
  | succ rem ih =>
    intro cur now' cnt h
    simp only [splitChain] at h
    split at h
    · -- chain step
      rename_i hcond
      cases hrec : splitChain key k2 M rem (newNode none) with
      | none => rw [hrec] at h; cases h
      | some p =>
        obtain ⟨inner, cnt0⟩ := p
        rw [hrec] at h
        rw [Option.some_inj] at h
        obtain ⟨h1, _⟩ := Prod.mk.injEq .. ▸ h
        obtain ⟨m, hm, hmk⟩ := ih (newNode none) inner cnt0 hrec
        refine ⟨m, ?_, hmk⟩
        rw [← h1]
        simp only [getNode, Node.next, insertA_isEmpty, Bool.false_eq_true, if_false]
        rw [lookupA_insertA_self]
        exact hm
    · split at h
      · -- case 2.2
        rw [Option.some_inj] at h
        obtain ⟨h1, _⟩ := Prod.mk.injEq .. ▸ h
        refine ⟨newNode (some key), ?_, rfl⟩
        rw [← h1]
        simp only [getNode, Node.next, insertA_isEmpty, Bool.false_eq_true, if_false]
        rw [lookupA_insertA_self]
        exact getNode_newNode_self key rem
      · split at h
        · -- case 2.3
          rename_i hcond h22 h23
          rw [Option.some_inj] at h
          obtain ⟨h1, _⟩ := Prod.mk.injEq .. ▸ h
          refine ⟨newNode (some key), ?_, rfl⟩
          rw [← h1]
          simp only [getNode, Node.next, insertA_isEmpty, Bool.false_eq_true, if_false]
          have hne : k2.str.getD (key.str.length - (rem + 1)) 0
              ≠ key.str.getD (key.str.length - (rem + 1)) 0 := by
            intro heq
            exact hcond ⟨h23, heq.symm⟩
          rw [lookupA_insertA_ne _ _ (Ne.symm hne)]
          rw [lookupA_insertA_self]
          exact getNode_newNode_self key rem
        · cases h

theorem getNode_succ_child (q : List Nat) (rem : Nat) (now ch : Node)
    (hne : now.next.isEmpty = false)
    (hl : lookupA (q.getD (q.length - (rem + 1)) 0) now.next = some ch) :
    getNode q (rem + 1) now = getNode q rem ch := by
  simp only [getNode, hne, Bool.false_eq_true, if_false, hl]

theorem tget_some_key (t : TireKWP) (q : List Nat) (now : Node) (k : Keyword)
    (hg : getNode q q.length t.root = some now) (hk : now.key = some k)
    (he : eqFrom q k.str 0 = true) : t.get q = some now := by
  simp only [TireKWP.get, hg, hk, he, if_true]

theorem getNode_putNode (key : Keyword) (M : Int) :
    ∀ rem now now' cnt, putNode key M rem now = some (now', cnt) →
      ∃ m, getNode key.str rem now' = some m ∧ m.key = some key := by
  intro rem
  induction rem with
  | zero =>
    intro now now' cnt h
    simp only [putNode] at h
    split at h
    · split at h
      · rw [Option.some_inj, Prod.mk.injEq] at h
        obtain ⟨h1, h2⟩ := h
        subst h1
        exact ⟨_, rfl, rfl⟩
      · cases h
    · rw [Option.some_inj, Prod.mk.injEq] at h
      obtain ⟨h1, h2⟩ := h
      subst h1
      exact ⟨_, rfl, rfl⟩
  | succ rem ih =>
    intro now now' cnt h
    simp only [putNode] at h
    split at h
    · -- case 2: childless node
      split at h
      · cases h
      · rename_i k2 hk
        exact getNode_splitChain key k2 M (rem + 1) now now' cnt h
    · -- case 3
      split at h
      · -- no child on the rune
        rw [Option.some_inj, Prod.mk.injEq] at h
        obtain ⟨h1, h2⟩ := h
        subst h1
        refine ⟨newNode (some key), ?_, rfl⟩
        rw [getNode_succ_child key.str rem _ (newNode (some key))
          (by simp only [Node.next]; exact insertA_isEmpty _ _ _)
          (by simp only [Node.next]; exact lookupA_insertA_self _ _ _)]
        exact getNode_newNode_self key rem
      · -- child present: descend
        split at h
        · exact Option.noConfusion h
        · rename_i child' cnt0 hrec
          rw [Option.some_inj, Prod.mk.injEq] at h
          obtain ⟨h1, h2⟩ := h
          subst h1
          obtain ⟨m, hm, hmk⟩ := ih _ child' cnt0 hrec
          refine ⟨m, ?_, hmk⟩
          rw [getNode_succ_child key.str rem _ child'
            (by simp only [Node.next]; exact insertA_isEmpty _ _ _)
            (by simp only [Node.next]; exact lookupA_insertA_self _ _ _)]
          exact hm

theorem get_putK (t : TireKWP) (key : Keyword) (t1 : TireKWP) (h : t.putK key = some t1) :
    ∃ m, t1.get key.str = some m ∧ m.key = some key := by
  unfold TireKWP.putK at h
  split at h
  · cases h
  · rename_i c0 rest hs
    split at h
    · -- no root child on the first rune
      rename_i hl
      rw [Option.some_inj] at h
      have hroot : t1.root = Node.mk t.root.key
          (insertA c0 (newNode (some key)) t.root.next)
          (adjustSorted key t.maxSortedLen t.root.sorted) := by rw [← h]
      have hg : getNode key.str key.str.length t1.root = some (newNode (some key)) := by
        have hlen : key.str.length = rest.length + 1 := by rw [hs]; rfl
        rw [hlen, hroot]
        rw [getNode_succ_child key.str rest.length _ (newNode (some key))
          (by simp only [Node.next]; exact insertA_isEmpty _ _ _)
          (by
            have hpos : key.str.length - (rest.length + 1) = 0 := by rw [hs]; simp
            rw [hpos, hs]
            simp only [List.getD_cons_zero, Node.next]
            exact lookupA_insertA_self _ _ _)]
        exact getNode_newNode_self key rest.length
      refine ⟨newNode (some key), ?_, rfl⟩
      exact tget_some_key t1 key.str (newNode (some key)) key hg rfl (eqFrom_self _ _)
    · -- root child present
      rename_i ch hch
      split at h
      · exact Option.noConfusion h
      · rename_i child' cnt0 hrec
        rw [Option.some_inj] at h
        have hroot : t1.root = Node.mk t.root.key
            (insertA c0 child' t.root.next)
            (adjustSorted key t.maxSortedLen t.root.sorted) := by rw [← h]
        have hrem : key.str.length - 1 = rest.length := by rw [hs]; rfl
        rw [hrem] at hrec
        obtain ⟨m, hm, hmk⟩ := getNode_putNode key t.maxSortedLen rest.length ch child' cnt0 hrec
        have hg : getNode key.str key.str.length t1.root = some m := by
          have hlen : key.str.length = rest.length + 1 := by rw [hs]; rfl
          rw [hlen, hroot]
          rw [getNode_succ_child key.str rest.length _ child'
            (by simp only [Node.next]; exact insertA_isEmpty _ _ _)
            (by
              have hpos : key.str.length - (rest.length + 1) = 0 := by rw [hs]; simp
              rw [hpos, hs]
              simp only [List.getD_cons_zero, Node.next]
              exact lookupA_insertA_self _ _ _)]
          exact hm
        exact ⟨m, tget_some_key t1 key.str m key hg hmk (eqFrom_self _ _), hmk⟩

theorem get_congr_root (t t' : TireKWP) (q : List Nat) (h : t.root = t'.root) :
    t.get q = t'.get q := by
  unfold TireKWP.get
  rw [h]

theorem put_after_insert (t t1' t1 : TireKWP) (s : GoStr) (w1 w2 : Int)
    (hput : t.putK { Weight := w1, Str := s, str := runes s } = some t1')
    (ht1 : { t1' with len := t1'.len + 1 } = t1)
    (hs : ¬s.length = 0) (hcp : ¬(runes s).length = 0) :
    t1.Put s w2 = some t1 := by
  obtain ⟨m, hm, hmk⟩ := get_putK t _ t1' hput
  have hm' : t1'.get (runes s) = some m := hm
  have hroot : t1.root = t1'.root := by rw [← ht1]
  have hget : t1.get (runes s) = some m := by
    rw [get_congr_root t1 t1' (runes s) hroot]
    exact hm'
  simp only [TireKWP.Put]
  rw [if_neg hs, if_neg hcp]
  simp only [hget, hmk]
  rfl

theorem C6_aux (t t1 : TireKWP) (s : GoStr) (w1 w2 : Int)
    (h : t.Put s w1 = some t1) : t1.Put s w2 = some t1 := by
  simp only [TireKWP.Put] at h
  split at h
  · cases h
  · rename_i hs
    split at h
    · cases h
    · rename_i hcp
      split at h
      · -- the descent found a node
        rename_i n hgetn
        split at h
        · -- the node owns a keyword
          rename_i k2 hk2
          split at h
          · -- duplicate fast-path: the state is unchanged
            rename_i hlen
            rw [Option.some_inj] at h
            subst h
            simp only [TireKWP.Put]
            rw [if_neg hs, if_neg hcp]
            simp only [hgetn, hk2, if_pos hlen]
          · obtain ⟨t1', hput, ht1⟩ := Option.map_eq_some'.mp h
            exact put_after_insert t t1' t1 s w1 w2 hput ht1 hs hcp
        · obtain ⟨t1', hput, ht1⟩ := Option.map_eq_some'.mp h
          exact put_after_insert t t1' t1 s w1 w2 hput ht1 hs hcp
      · obtain ⟨t1', hput, ht1⟩ := Option.map_eq_some'.mp h
        exact put_after_insert t t1' t1 s w1 w2 hput ht1 hs hcp

/-- Claim C6: putting a string and then putting the same string again
with any other weight leaves the index in exactly the state produced by
the first Put: the second Put is a no-op, so the stored weight is not
overwritten and the keyword count is unchanged.  This holds for every
starting state, with no side conditions beyond success of the first
Put. -/
theorem C6_thm (t t1 : TireKWP) (s : GoStr) (w1 w2 : Int)
    (h : t.Put s w1 = some t1) : t1.Put s w2 = some t1 :=
  C6_aux t t1 s w1 w2 h

/-- Claim C6 witness: putting the one-byte string a with weight 1 into
an empty index and then again with weight 2 returns the unchanged
state. -/
theorem C6_witness :
    (TireKWP.New 3).Put [97] 1 = some exS1 ∧ exS1.Put [97] 2 = some exS1 :=
  ⟨rfl, C6_thm (TireKWP.New 3) exS1 [97] 1 2 rfl⟩

/-! ## Claim C9: the capacity bound -/

theorem omPut_length_le (k : Keyword) (ks : List Keyword) :
    (omPut k ks).length ≤ ks.length + 1 := by
  induction ks with
  | nil => simp [omPut]
  | cons a rest ih =>
    simp only [omPut]
    split
    · simp
    · split
      · simp
      · simpa using Nat.succ_le_succ ih

theorem adjustSorted_length_le (k : Keyword) (M : Int) (ks : List Keyword)
    (h : (ks.length : Int) ≤ M) : ((adjustSorted k M ks).length : Int) ≤ M := by
  simp only [adjustSorted]
  have hlen := omPut_length_le k ks
  split
  · rename_i hgt
    rw [List.length_dropLast]
    omega
  · rename_i hle
    omega

theorem lookupA_bnd {M : Int} {l : List (Nat × Node)} {c : Nat} {n : Node}
    (hb : nodeBndL M l) (h : lookupA c l = some n) : nodeBnd M n := by
  induction l with
  | nil => cases h
  | cons hd rest ih =>
    obtain ⟨c', n'⟩ := hd
    rw [nodeBndL] at hb
    simp only [lookupA] at h
    split at h
    · rw [Option.some_inj] at h
      subst h
      exact hb.1
    · exact ih hb.2 h

theorem insertA_bnd {M : Int} {l : List (Nat × Node)} {c : Nat} {n : Node}
    (hb : nodeBndL M l) (hn : nodeBnd M n) : nodeBndL M (insertA c n l) := by
  induction l with
  | nil => exact ⟨hn, trivial⟩
  | cons hd rest ih =>
    obtain ⟨c', n'⟩ := hd
    rw [nodeBndL] at hb
    simp only [insertA]
    split
    · exact ⟨hn, hb.2⟩
    · exact ⟨hb.1, ih hb.2⟩

theorem newNode_some_bnd {M : Int} (k : Keyword) (hM : 1 ≤ M) :
    nodeBnd M (newNode (some k)) := by
  refine ⟨?_, trivial⟩
  simpa using hM

theorem newNode_none_bnd {M : Int} (hM : 1 ≤ M) : nodeBnd M (newNode none) := by
  refine ⟨?_, trivial⟩
  simp
  omega

theorem splitChain_bnd (key k2 : Keyword) (M : Int) (hM : 1 ≤ M) :
    ∀ rem cur now' cnt, splitChain key k2 M rem cur = some (now', cnt) →
      nodeBnd M cur → nodeBnd M now' := by
  intro rem
  induction rem with
  | zero =>
    intro cur now' cnt h hc
    obtain ⟨ck, cn, cs⟩ := cur
    obtain ⟨hslen, hnext⟩ := hc
    simp only [splitChain] at h
    split at h
    · rw [Option.some_inj, Prod.mk.injEq] at h
      obtain ⟨h1, _⟩ := h
      subst h1
      exact ⟨adjustSorted_length_le _ _ _ (adjustSorted_length_le _ _ _ hslen),
        insertA_bnd hnext (newNode_some_bnd k2 hM)⟩
    · cases h
  | succ rem ih =>
    intro cur now' cnt h hc
    obtain ⟨ck, cn, cs⟩ := cur
    obtain ⟨hslen, hnext⟩ := hc
    simp only [splitChain] at h
    split at h
    · -- chain step
      split at h
      · exact Option.noConfusion h
      · rename_i inner cnt0 hrec
        rw [Option.some_inj, Prod.mk.injEq] at h
        obtain ⟨h1, _⟩ := h
        subst h1
        have hinner : nodeBnd M inner := ih (newNode none) inner cnt0 hrec (newNode_none_bnd hM)
        exact ⟨adjustSorted_length_le _ _ _ (adjustSorted_length_le _ _ _ hslen),
          insertA_bnd hnext hinner⟩
    · split at h
      · rw [Option.some_inj, Prod.mk.injEq] at h
        obtain ⟨h1, _⟩ := h
        subst h1
        exact ⟨adjustSorted_length_le _ _ _ (adjustSorted_length_le _ _ _ hslen),
          insertA_bnd hnext (newNode_some_bnd key hM)⟩
      · split at h
        · rw [Option.some_inj, Prod.mk.injEq] at h
          obtain ⟨h1, _⟩ := h
          subst h1
          refine ⟨adjustSorted_length_le _ _ _ (adjustSorted_length_le _ _ _
            (adjustSorted_length_le _ _ _ (adjustSorted_length_le _ _ _ hslen))), ?_⟩
          exact insertA_bnd (insertA_bnd hnext (newNode_some_bnd key hM)) (newNode_some_bnd k2 hM)
        · cases h

theorem putNode_bnd (key : Keyword) (M : Int) (hM : 1 ≤ M) :
    ∀ rem now now' cnt, putNode key M rem now = some (now', cnt) →
      nodeBnd M now → nodeBnd M now' := by
  intro rem
  induction rem with
  | zero =>
    intro now now' cnt h hb
    obtain ⟨nk, nn, ns⟩ := now
    obtain ⟨hslen, hnext⟩ := hb
    simp only [putNode] at h
    split at h
    · rename_i k2 hk2
      split at h
      · rw [Option.some_inj, Prod.mk.injEq] at h
        obtain ⟨h1, _⟩ := h
        subst h1
        refine ⟨adjustSorted_length_le _ _ _ hslen, ?_⟩
        exact insertA_bnd hnext (newNode_some_bnd k2 hM)
      · cases h
    · rw [Option.some_inj, Prod.mk.injEq] at h
      obtain ⟨h1, _⟩ := h
      subst h1
      exact ⟨adjustSorted_length_le _ _ _ hslen, hnext⟩
  | succ rem ih =>
    intro now now' cnt h hb
    obtain ⟨nk, nn, ns⟩ := now
    obtain ⟨hslen, hnext⟩ := hb
    simp only [putNode] at h
    split at h
    · split at h
      · cases h
      · rename_i k2 hk2
        exact splitChain_bnd key k2 M hM (rem + 1) _ now' cnt h ⟨hslen, hnext⟩
    · split at h
      · rw [Option.some_inj, Prod.mk.injEq] at h
        obtain ⟨h1, _⟩ := h
        subst h1
        exact ⟨adjustSorted_length_le _ _ _ hslen,
          insertA_bnd hnext (newNode_some_bnd key hM)⟩
      · rename_i ch hch
        split at h
        · exact Option.noConfusion h
        · rename_i child' cnt0 hrec
          rw [Option.some_inj, Prod.mk.injEq] at h
          obtain ⟨h1, _⟩ := h
          subst h1
          have hchb : nodeBnd M ch := lookupA_bnd hnext hch
          exact ⟨adjustSorted_length_le _ _ _ hslen,
            insertA_bnd hnext (ih ch child' cnt0 hrec hchb)⟩

theorem putK_cases (t t1 : TireKWP) (key : Keyword) (h : t.putK key = some t1) :
    ∃ c0 rest, key.str = c0 :: rest ∧ t1.maxSortedLen = t.maxSortedLen ∧ t1.len = t.len ∧
      ((lookupA c0 t.root.next = none ∧
        t1.root = Node.mk t.root.key (insertA c0 (newNode (some key)) t.root.next)
          (adjustSorted key t.maxSortedLen t.root.sorted) ∧ t1.nNodes = t.nNodes + 1)
      ∨ (∃ child child' cnt, lookupA c0 t.root.next = some child ∧
          putNode key t.maxSortedLen rest.length child = some (child', cnt) ∧
          t1.root = Node.mk t.root.key (insertA c0 child' t.root.next)
            (adjustSorted key t.maxSortedLen t.root.sorted) ∧
          t1.nNodes = t.nNodes + cnt)) := by
  unfold TireKWP.putK at h
  split at h
  · cases h
  · rename_i c0 rest hs
    refine ⟨c0, rest, hs, ?_⟩
    split at h
    · rename_i hl
      rw [Option.some_inj] at h
      subst h
      exact ⟨rfl, rfl, Or.inl ⟨hl, rfl, rfl⟩⟩
    · rename_i ch hch
      split at h
      · exact Option.noConfusion h
      · rename_i child' cnt0 hrec
        rw [Option.some_inj] at h
        subst h
        have hrem : key.str.length - 1 = rest.length := by rw [hs]; rfl
        rw [hrem] at hrec
        exact ⟨rfl, rfl, Or.inr ⟨ch, child', cnt0, hch, hrec, rfl, rfl⟩⟩

theorem Put_cases (t t1 : TireKWP) (s : GoStr) (w : Int) (h : t.Put s w = some t1) :
    s.length ≠ 0 ∧ (runes s).length ≠ 0 ∧
      ((∃ n k2, t.get (runes s) = some n ∧ n.key = some k2 ∧
          k2.Str.length = s.length ∧ t1 = t)
      ∨ (∃ t1', t.putK { Weight := w, Str := s, str := runes s } = some t1' ∧
          t1 = { t1' with len := t1'.len + 1 } ∧
          (∀ n k2, t.get (runes s) = some n → n.key = some k2 →
            k2.Str.length ≠ s.length))) := by
  simp only [TireKWP.Put] at h
  split at h
  · cases h
  · rename_i hs
    split at h
    · cases h
    · rename_i hcp
      refine ⟨hs, hcp, ?_⟩
      split at h
      · rename_i n hgetn
        split at h
        · rename_i k2 hk2
          split at h
          · rename_i hlen
            rw [Option.some_inj] at h
            exact Or.inl ⟨n, k2, hgetn, hk2, hlen, h.symm⟩
          · rename_i hlen
            obtain ⟨t1', hput, ht1⟩ := Option.map_eq_some'.mp h
            refine Or.inr ⟨t1', hput, ht1.symm, ?_⟩
            intro n' k2' hg' hk'
            rw [hgetn, Option.some_inj] at hg'
            subst hg'
            rw [hk2, Option.some_inj] at hk'
            subst hk'
            exact hlen
        · rename_i hk2
          obtain ⟨t1', hput, ht1⟩ := Option.map_eq_some'.mp h
          refine Or.inr ⟨t1', hput, ht1.symm, ?_⟩
          intro n' k2' hg' hk'
          rw [hgetn, Option.some_inj] at hg'
          subst hg'
          rw [hk2] at hk'
          cases hk'
      · rename_i hgetn
        obtain ⟨t1', hput, ht1⟩ := Option.map_eq_some'.mp h
        refine Or.inr ⟨t1', hput, ht1.symm, ?_⟩
        intro n' k2' hg' hk'
        rw [hgetn] at hg'
        cases hg'

theorem reachP_maxLen {M : Int} {P : GoStr → Int → Prop} {t : TireKWP}
    (ht : ReachP M P t) : t.maxSortedLen = M := by
  induction ht with
  | new => rfl
  | put hr hp hput ih =>
    obtain ⟨_, _, hcase⟩ := Put_cases _ _ _ _ hput
    rcases hcase with ⟨n, k2, _, _, _, rfl⟩ | ⟨t1', hput', rfl, _⟩
    · exact ih
    · obtain ⟨_, _, _, hmax, _⟩ := putK_cases _ _ _ hput'
      rw [show ({ t1' with len := t1'.len + 1 } : TireKWP).maxSortedLen
        = t1'.maxSortedLen from rfl, hmax]
      exact ih

theorem nodeBnd_def (M : Int) (n : Node) :
    nodeBnd M n ↔ (n.sorted.length : Int) ≤ M ∧ nodeBndL M n.next := by
  cases n
  exact Iff.rfl

theorem reachP_nodeBnd {M : Int} {P : GoStr → Int → Prop} {t : TireKWP}
    (hM : 1 ≤ M) (ht : ReachP M P t) : nodeBnd M t.root := by
  induction ht with
  | new =>
    refine ⟨?_, trivial⟩
    simp only [TireKWP.New, newNode, Node.sorted, List.length_nil, Nat.cast_zero]
    omega
  | put hr hp hput ih =>
    rename_i t0 t1 s w
    obtain ⟨_, _, hcase⟩ := Put_cases _ _ _ _ hput
    rcases hcase with ⟨n, k2, _, _, _, rfl⟩ | ⟨t1', hput', rfl, _⟩
    · exact ih
    · obtain ⟨c0, rest, hs, hmax, _, hshape⟩ := putK_cases _ _ _ hput'
      have hmax0 : t0.maxSortedLen = M := reachP_maxLen hr
      have hb0 := (nodeBnd_def M t0.root).mp ih
      show nodeBnd M t1'.root
      rcases hshape with ⟨hl, hroot, _⟩ | ⟨ch, ch', cnt, hl, hpn, hroot, _⟩
      · rw [hroot, hmax0]
        exact ⟨adjustSorted_length_le _ _ _ hb0.1,
          insertA_bnd hb0.2 (newNode_some_bnd _ hM)⟩
      · rw [hroot, hmax0]
        rw [hmax0] at hpn
        have hchb := lookupA_bnd hb0.2 hl
        exact ⟨adjustSorted_length_le _ _ _ hb0.1,
          insertA_bnd hb0.2 (putNode_bnd _ M hM rest.length ch ch' cnt hpn hchb)⟩

theorem getNode_bnd {M : Int} (q : List Nat) :
    ∀ rem (now n : Node), nodeBnd M now → getNode q rem now = some n → nodeBnd M n := by
  intro rem
  induction rem with
  | zero =>
    intro now n hb h
    rw [getNode, Option.some_inj] at h
    subst h
    exact hb
  | succ rem ih =>
    intro now n hb h
    simp only [getNode] at h
    split at h
    · split at h
      · split at h
        · rw [Option.some_inj] at h
          subst h
          exact hb
        · cases h
      · cases h
    · split at h
      · cases h
      · rename_i ch hch
        exact ih ch n (lookupA_bnd ((nodeBnd_def M now).mp hb).2 hch) h

theorem tget_bnd {M : Int} (t : TireKWP) (q : List Nat) (n : Node)
    (hb : nodeBnd M t.root) (h : t.get q = some n) : nodeBnd M n := by
  unfold TireKWP.get at h
  split at h
  · cases h
  · rename_i now hnow
    have hnb : nodeBnd M now := getNode_bnd q q.length t.root now hb hnow
    split at h
    · split at h
      · rw [Option.some_inj] at h
        subst h
        exact hnb
      · cases h
    · rw [Option.some_inj] at h
      subst h
      exact hnb

/-- Claim C9: for an index built with capacity M at least 1, after any
sequence of successful Puts every node of the tree keeps a cached
keyword list of length at most M, and consequently every query answer
has at most M entries. -/
theorem C9_thm (M : Int) (t : TireKWP) (hM : 1 ≤ M) (ht : Reach M t) :
    nodeBnd M t.root ∧ ∀ q : GoStr, ((t.Get q).length : Int) ≤ M := by
  have hb : nodeBnd M t.root := reachP_nodeBnd hM ht
  refine ⟨hb, fun q => ?_⟩
  unfold TireKWP.Get
  split
  · rw [List.length_map]
    exact ((nodeBnd_def M t.root).mp hb).1
  · split
    · rename_i n hn
      rw [List.length_map]
      exact ((nodeBnd_def M n).mp (tget_bnd t (runes q) n hb hn)).1
    · simp only [List.length_nil, Nat.cast_zero]
      omega

/-- Claim C9 witness: in the concrete reachable state holding the
keyword a with capacity 3, the bound holds and the query a returns at
most 3 results. -/
theorem C9_witness :
    nodeBnd 3 exS1.root ∧ ((exS1.Get [97]).length : Int) ≤ 3 :=
  have hr : Reach 3 exS1 :=
    @ReachP.put 3 (fun _ _ => True) (TireKWP.New 3) exS1 [97] 1 ReachP.new trivial rfl
  ⟨(C9_thm 3 exS1 (by norm_num) hr).1, (C9_thm 3 exS1 (by norm_num) hr).2 [97]⟩

/-! ## Order lemmas for the compound order and the comparator -/

theorem strCompare_self (s : GoStr) : strCompare s s = 0 := by
  induction s with
  | nil => rfl
  | cons a t ih => simp [strCompare, ih]

theorem strCompare_eq_zero_iff {s t : GoStr} : strCompare s t = 0 ↔ s = t := by
  constructor
  · intro h
    induction s generalizing t with
    | nil =>
      cases t with
      | nil => rfl
      | cons b u => simp [strCompare] at h
    | cons a u ih =>
      cases t with
      | nil => simp [strCompare] at h
      | cons b v =>
        simp only [strCompare] at h
        rcases Nat.lt_trichotomy a b with hab | hab | hab
        · rw [if_pos hab] at h; cases h
        · rw [if_neg (by omega), if_neg (by omega)] at h
          rw [hab, ih h]
        · rw [if_neg (by omega), if_pos hab] at h; cases h
  · intro h
    rw [h]
    exact strCompare_self t

theorem strCompare_trans_neg {a b c : GoStr}
    (h1 : strCompare a b < 0) (h2 : strCompare b c < 0) : strCompare a c < 0 := by
  induction a generalizing b c with
  | nil =>
    cases c with
    | nil =>
      cases b with
      | nil => exact h2
      | cons x u =>
        exfalso
        simp [strCompare] at h2
    | cons y v => simp [strCompare]
  | cons x u ih =>
    cases b with
    | nil =>
      exfalso
      simp [strCompare] at h1
    | cons y v =>
      cases c with
      | nil =>
        exfalso
        simp [strCompare] at h2
      | cons z w =>
        simp only [strCompare] at h1 h2 ⊢
        rcases Nat.lt_trichotomy x y with hxy | hxy | hxy
        · rcases Nat.lt_trichotomy y z with hyz | hyz | hyz
          · rw [if_pos (by omega)]; omega
          · rw [if_pos (by omega)]; omega
          · rw [if_neg (by omega), if_pos hyz] at h2; omega
        · subst hxy
          rw [if_neg (by omega), if_neg (by omega)] at h1
          rcases Nat.lt_trichotomy x z with hyz | hyz | hyz
          · rw [if_pos hyz]; omega
          · subst hyz
            rw [if_neg (by omega), if_neg (by omega)] at h2 ⊢
            exact ih h1 h2
          · rw [if_neg (by omega), if_pos hyz] at h2; omega
        · rw [if_neg (by omega), if_pos hxy] at h1; omega

theorem strCompare_vals (s t : GoStr) :
    strCompare s t = -1 ∨ strCompare s t = 0 ∨ strCompare s t = 1 := by
  induction s generalizing t with
  | nil => cases t <;> simp [strCompare]
  | cons a u ih =>
    cases t with
    | nil => simp [strCompare]
    | cons b v =>
      simp only [strCompare]
      rcases Nat.lt_trichotomy a b with hab | hab | hab
      · rw [if_pos hab]; simp
      · rw [if_neg (by omega), if_neg (by omega)]; exact ih v
      · rw [if_neg (by omega), if_pos hab]; simp

theorem kwLT_trans {a b c : Keyword} (h1 : kwLT a b) (h2 : kwLT b c) : kwLT a c := by
  unfold kwLT at *
  rcases h1 with h1 | ⟨h1w, h1s⟩ <;> rcases h2 with h2 | ⟨h2w, h2s⟩
  · exact Or.inl (by omega)
  · exact Or.inl (by omega)
  · exact Or.inl (by omega)
  · exact Or.inr ⟨by omega, strCompare_trans_neg h1s h2s⟩

theorem kwLT_asymm {a b : Keyword} (h1 : kwLT a b) (h2 : kwLT b a) : False := by
  unfold kwLT at *
  rcases h1 with h1 | ⟨h1w, h1s⟩ <;> rcases h2 with h2 | ⟨h2w, h2s⟩
  · omega
  · omega
  · omega
  · rw [strCompare_swap] at h2s
    omega

theorem kwLT_irrefl (a : Keyword) : ¬kwLT a a := fun h => kwLT_asymm h h

theorem kwLT_connex {a b : Keyword} (h : a.Str ≠ b.Str) : kwLT a b ∨ kwLT b a := by
  unfold kwLT
  rcases Int.lt_trichotomy a.Weight b.Weight with hw | hw | hw
  · exact Or.inr (Or.inl hw)
  · have hs : strCompare a.Str b.Str ≠ 0 := fun h0 => h (strCompare_eq_zero_iff.mp h0)
    rcases strCompare_vals a.Str b.Str with hv | hv | hv
    · exact Or.inl (Or.inr ⟨hw, by omega⟩)
    · exact absurd hv hs
    · refine Or.inr (Or.inr ⟨hw.symm, ?_⟩)
      rw [strCompare_swap]
      omega
  · exact Or.inl (Or.inl hw)

theorem cmp_eq_zero_iff {k1 k2 : Keyword} (h1 : WSmall k1) (h2 : WSmall k2) :
    k1.cmp k2 = 0 ↔ k1.Str = k2.Str := by
  simp only [Keyword.cmp]
  obtain ⟨h1a, h1b⟩ := h1
  obtain ⟨h2a, h2b⟩ := h2
  constructor
  · intro h
    split at h
    · rename_i h0
      exact strCompare_eq_zero_iff.mp h0
    · split at h
      · rw [wrap64_eq_self (by omega) (by omega)] at h
        omega
      · rename_i h0 hw
        rcases strCompare_vals k1.Str k2.Str with hv | hv | hv <;> omega
  · intro h
    rw [if_pos (strCompare_eq_zero_iff.mpr h)]

theorem cmp_lt_zero_iff {k1 k2 : Keyword} (h1 : WSmall k1) (h2 : WSmall k2)
    (hne : k1.Str ≠ k2.Str) : k1.cmp k2 < 0 ↔ kwLT k1 k2 := by
  simp only [Keyword.cmp]
  unfold kwLT
  obtain ⟨h1a, h1b⟩ := h1
  obtain ⟨h2a, h2b⟩ := h2
  have hs : strCompare k1.Str k2.Str ≠ 0 := fun h0 => hne (strCompare_eq_zero_iff.mp h0)
  rw [if_neg hs]
  by_cases hw : k1.Weight = k2.Weight
  · rw [if_neg (by omega)]
    constructor
    · intro h
      exact Or.inr ⟨hw, h⟩
    · intro h
      rcases h with h | ⟨_, h⟩
      · omega
      · exact h
  · rw [if_pos hw]
    rw [wrap64_eq_self (by omega) (by omega)]
    constructor
    · intro h
      exact Or.inl (by omega)
    · intro h
      rcases h with h | ⟨hweq, _⟩
      · omega
      · exact absurd hweq hw

theorem cmp_pos_of_kwLT {k1 k2 : Keyword} (h1 : WSmall k1) (h2 : WSmall k2)
    (hne : k1.Str ≠ k2.Str) (h : kwLT k1 k2) : 0 < k2.cmp k1 := by
  have hne' : k2.Str ≠ k1.Str := Ne.symm hne
  have hlt : ¬ k2.cmp k1 < 0 := by
    rw [cmp_lt_zero_iff h2 h1 hne']
    intro hc
    exact kwLT_asymm h hc
  have hz : ¬ k2.cmp k1 = 0 := by
    rw [cmp_eq_zero_iff h2 h1]
    exact hne'
  omega

/-! ## The ordered container maintains a top-K set -/

theorem cmp_self_eq_zero (k : Keyword) : k.cmp k = 0 := by
  simp only [Keyword.cmp]
  rw [if_pos (strCompare_self k.Str)]

theorem omPut_fresh {s : List Keyword} {k : Keyword}
    (hsort : List.Pairwise kwLT s) (hk : WSmall k) (hs : WSmallL s)
    (hf : ∀ j ∈ s, j.Str ≠ k.Str) :
    List.Perm (omPut k s) (k :: s) ∧ List.Pairwise kwLT (omPut k s) := by
  induction s with
  | nil => exact ⟨List.Perm.refl _, List.pairwise_singleton _ _⟩
  | cons a rest ih =>
    have hka : k.Str ≠ a.Str := fun h => hf a (by simp) h.symm
    have haW : WSmall a := hs a (by simp)
    rw [List.pairwise_cons] at hsort
    obtain ⟨ha, hrest⟩ := hsort
    have hrW : WSmallL rest := fun j hj => hs j (List.mem_cons_of_mem a hj)
    have hrf : ∀ j ∈ rest, j.Str ≠ k.Str := fun j hj => hf j (List.mem_cons_of_mem a hj)
    simp only [omPut]
    rw [if_neg (by rw [cmp_eq_zero_iff hk haW]; exact hka)]
    by_cases hlt : k.cmp a < 0
    · rw [if_pos hlt]
      have hkla : kwLT k a := (cmp_lt_zero_iff hk haW hka).mp hlt
      refine ⟨List.Perm.refl _, ?_⟩
      rw [List.pairwise_cons]
      refine ⟨?_, List.pairwise_cons.mpr ⟨ha, hrest⟩⟩
      intro b hb
      rcases List.mem_cons.mp hb with rfl | hb
      · exact hkla
      · exact kwLT_trans hkla (ha b hb)
    · rw [if_neg hlt]
      have halk : kwLT a k := by
        rcases kwLT_connex hka with h | h
        · exact absurd ((cmp_lt_zero_iff hk haW hka).mpr h) hlt
        · exact h
      obtain ⟨ihp, ihs⟩ := ih hrest hrW hrf
      refine ⟨?_, ?_⟩
      · exact List.Perm.trans (ihp.cons a) (List.Perm.swap k a rest)
      · rw [List.pairwise_cons]
        refine ⟨?_, ihs⟩
        intro b hb
        have hb' : b ∈ k :: rest := ihp.mem_iff.mp hb
        rcases List.mem_cons.mp hb' with rfl | hb'
        · exact halk
        · exact ha b hb'

theorem omPut_mem {s : List Keyword} {k : Keyword}
    (hsort : List.Pairwise kwLT s) (hk : WSmall k) (hs : WSmallL s)
    (hmem : k ∈ s) (hne : ∀ j ∈ s, j ≠ k → j.Str ≠ k.Str) :
    omPut k s = s := by
  induction s with
  | nil => cases hmem
  | cons a rest ih =>
    rw [List.pairwise_cons] at hsort
    obtain ⟨ha, hrest⟩ := hsort
    have haW : WSmall a := hs a (by simp)
    simp only [omPut]
    by_cases hak : a = k
    · subst hak
      rw [if_pos (cmp_self_eq_zero a)]
    · have hkrest : k ∈ rest := by
        rcases List.mem_cons.mp hmem with rfl | h
        · exact absurd rfl hak
        · exact h
      have hka : k.Str ≠ a.Str := fun h => hne a (by simp) hak h.symm
      have halk : kwLT a k := ha k hkrest
      rw [if_neg (by rw [cmp_eq_zero_iff hk haW]; exact hka)]
      rw [if_neg (by
        rw [cmp_lt_zero_iff hk haW hka]
        intro hc
        exact kwLT_asymm halk hc)]
      rw [ih hrest (fun j hj => hs j (List.mem_cons_of_mem a hj)) hkrest
        (fun j hj hjk => hne j (List.mem_cons_of_mem a hj) hjk)]

theorem omPut_dominated {s : List Keyword} {k : Keyword}
    (hk : WSmall k) (hs : WSmallL s)
    (hdom : ∀ j ∈ s, kwLT j k) (hf : ∀ j ∈ s, j.Str ≠ k.Str) :
    omPut k s = s ++ [k] := by
  induction s with
  | nil => rfl
  | cons a rest ih =>
    have haW : WSmall a := hs a (by simp)
    have hka : k.Str ≠ a.Str := fun h => hf a (by simp) h.symm
    have halk : kwLT a k := hdom a (by simp)
    simp only [omPut]
    rw [if_neg (by rw [cmp_eq_zero_iff hk haW]; exact hka)]
    rw [if_neg (by
      rw [cmp_lt_zero_iff hk haW hka]
      intro hc
      exact kwLT_asymm halk hc)]
    rw [ih (fun j hj => hs j (List.mem_cons_of_mem a hj))
      (fun j hj => hdom j (List.mem_cons_of_mem a hj))
      (fun j hj => hf j (List.mem_cons_of_mem a hj))]
    rfl

theorem TopOK_perm_right {M : Int} {s S S' : List Keyword}
    (h : TopOK M s S) (hp : List.Perm S S') : TopOK M s S' := by
  obtain ⟨h1, h2, h3, h4⟩ := h
  refine ⟨h1, fun k hk => hp.mem_iff.mp (h2 k hk), by rw [h3, hp.length_eq], ?_⟩
  intro k hk
  exact h4 k (hp.mem_iff.mpr hk)

theorem TopOK_nil (M : Int) : TopOK M [] [] := by
  refine ⟨List.Pairwise.nil, by simp, by simp, by simp⟩

theorem TopOK_single {M : Int} (hM : 1 ≤ M) (k : Keyword) : TopOK M [k] [k] := by
  refine ⟨List.pairwise_singleton _ _, by simp, ?_, ?_⟩
  · simp only [List.length_singleton]
    omega
  · intro j hj
    rw [List.mem_singleton] at hj
    subst hj
    exact Or.inl (by simp)

theorem kwLT_ne {a b : Keyword} (h : kwLT a b) : a ≠ b := by
  intro heq
  subst heq
  exact kwLT_irrefl a h

theorem strne_ne {a b : Keyword} (h : a.Str ≠ b.Str) : a ≠ b := by
  intro heq
  rw [heq] at h
  exact h rfl

theorem TopOK_adjust {M : Int} {s S : List Keyword} {k : Keyword}
    (h : TopOK M s S) (hfresh : ∀ j ∈ S, j.Str ≠ k.Str)
    (hk : WSmall k) (hS : WSmallL S)
    (hdS : List.Pairwise (fun a b => a.Str ≠ b.Str) S) :
    TopOK M (adjustSorted k M s) (k :: S) := by
  obtain ⟨hsort, hmem, hlen, hdom⟩ := h
  have hsS : WSmallL s := fun j hj => hS j (hmem j hj)
  have hfs : ∀ j ∈ s, j.Str ≠ k.Str := fun j hj => hfresh j (hmem j hj)
  obtain ⟨hperm, hsort'⟩ := omPut_fresh hsort hk hsS hfs
  have hlen' : (omPut k s).length = s.length + 1 := by
    rw [hperm.length_eq]
    rfl
  have hnodup' : (omPut k s).Nodup := hsort'.imp (fun h => kwLT_ne h)
  have hSnodup : S.Nodup := hdS.imp (fun h => strne_ne h)
  have hsnodup : s.Nodup := hsort.imp (fun h => kwLT_ne h)
  simp only [adjustSorted]
  split
  · -- the bound is exceeded: evict the greatest element
    rename_i hgt
    rw [hlen'] at hgt
    have hne : omPut k s ≠ [] := by
      intro h0
      rw [h0] at hlen'
      simp at hlen'
    have hsplit : (omPut k s).dropLast ++ [(omPut k s).getLast hne] = omPut k s :=
      List.dropLast_append_getLast hne
    set e := (omPut k s).getLast hne with hedef
    have hre : ∀ j ∈ (omPut k s).dropLast, kwLT j e := by
      have hp2 := hsort'
      rw [← hsplit, List.pairwise_append] at hp2
      intro j hj
      exact hp2.2.2 j hj e (by simp)
    have hdropmem : ∀ j ∈ (omPut k s).dropLast, j ∈ k :: s := by
      intro j hj
      exact hperm.mem_iff.mp ((List.dropLast_sublist _).mem hj)
    refine ⟨hsort'.sublist (List.dropLast_sublist _), ?_, ?_, ?_⟩
    · intro j hj
      rcases List.mem_cons.mp (hdropmem j hj) with rfl | hj'
      · exact List.mem_cons_self _ _
      · exact List.mem_cons_of_mem _ (hmem j hj')
    · rw [List.length_dropLast, hlen', List.length_cons]
      omega
    · intro k' hk'
      by_cases hkr : k' ∈ (omPut k s).dropLast
      · exact Or.inl hkr
      by_cases hke : k' = e
      · subst hke
        exact Or.inr hre
      have hnotin : k' ∉ omPut k s := by
        rw [← hsplit]
        simp only [List.mem_append, List.mem_singleton]
        rintro (h0 | h0)
        · exact hkr h0
        · exact hke h0
      have hnotks : k' ∉ k :: s := fun hh => hnotin (hperm.mem_iff.mpr hh)
      have hk'k : k' ≠ k := fun h0 => hnotks (h0 ▸ List.mem_cons_self _ _)
      have hk'S : k' ∈ S := by
        rcases List.mem_cons.mp hk' with h0 | h0
        · exact absurd h0 hk'k
        · exact h0
      have hk's : k' ∉ s := fun h0 => hnotks (List.mem_cons_of_mem _ h0)
      rcases hdom k' hk'S with h0 | hdomk'
      · exact absurd h0 hk's
      refine Or.inr ?_
      intro j hj
      rcases List.mem_cons.mp (hdropmem j hj) with heq | hjs
      · -- j = k : go through the evicted element e
        have hemem : e ∈ k :: s := hperm.mem_iff.mp (List.getLast_mem hne)
        have hek : e ≠ k := by
          intro h0
          have hknodup := hnodup'
          rw [← hsplit, List.nodup_append] at hknodup
          refine hknodup.2.2 hj ?_
          rw [List.mem_singleton, heq, ← h0]
        have hes : e ∈ s := by
          rcases List.mem_cons.mp hemem with h0 | h0
          · exact absurd h0 hek
          · exact h0
        exact kwLT_trans (hre j hj) (hdomk' e hes)
      · exact hdomk' j hjs
  · -- the bound is not exceeded
    rename_i hle
    rw [hlen'] at hle
    refine ⟨hsort', ?_, ?_, ?_⟩
    · intro j hj
      rcases List.mem_cons.mp (hperm.mem_iff.mp hj) with rfl | hj'
      · exact List.mem_cons_self _ _
      · exact List.mem_cons_of_mem _ (hmem j hj')
    · rw [hlen', List.length_cons]
      omega
    · intro k' hk'
      rcases List.mem_cons.mp hk' with rfl | hk'S
      · exact Or.inl (hperm.mem_iff.mpr (List.mem_cons_self _ _))
      rcases hdom k' hk'S with h0 | hdomk'
      · exact Or.inl (hperm.mem_iff.mpr (List.mem_cons_of_mem _ h0))
      -- the list was not full, so it already holds all of S
      have hslen : s.length = S.length := by omega
      have hsubp : List.Perm s S :=
        (List.Nodup.subperm hsnodup (fun j hj => hmem j hj)).perm_of_length_le
          (by omega)
      exact Or.inl (hperm.mem_iff.mpr (List.mem_cons_of_mem _ (hsubp.mem_iff.mpr hk'S)))

theorem strne_symm : Symmetric (fun a b : Keyword => a.Str ≠ b.Str) :=
  fun _ _ h => Ne.symm h

theorem TopOK_absorb {M : Int} {s S : List Keyword} {k : Keyword}
    (h : TopOK M s S) (hmemS : k ∈ S) (hk : WSmall k) (hS : WSmallL S)
    (hdS : List.Pairwise (fun a b => a.Str ≠ b.Str) S) :
    adjustSorted k M s = s := by
  obtain ⟨hsort, hmem, hlen, hdom⟩ := h
  have hsS : WSmallL s := fun j hj => hS j (hmem j hj)
  have hstrS := List.Pairwise.forall strne_symm hdS
  have hsnodup : s.Nodup := hsort.imp (fun h => kwLT_ne h)
  by_cases hks : k ∈ s
  · have homput : omPut k s = s := omPut_mem hsort hk hsS hks
      (fun j hj hjk => hstrS (hmem j hj) hmemS hjk)
    simp only [adjustSorted, homput]
    rw [if_neg (by
      have h1 : 0 < s.length := List.length_pos_of_mem hks
      omega)]
  · rcases hdom k hmemS with h0 | hdomk
    · exact absurd h0 hks
    have homput : omPut k s = s ++ [k] := omPut_dominated hk hsS hdomk
      (fun j hj => hstrS (hmem j hj) hmemS (fun he => hks (he ▸ hj)))
    have hlt : s.length < S.length := by
      rcases Nat.lt_or_ge s.length S.length with h1 | h1
      · exact h1
      · exfalso
        have hp : List.Perm s S :=
          (List.Nodup.subperm hsnodup (fun j hj => hmem j hj)).perm_of_length_le h1
        exact hks (hp.mem_iff.mpr hmemS)
    simp only [adjustSorted, homput]
    rw [if_pos (by
      rw [List.length_append, List.length_singleton]
      omega)]
    exact List.dropLast_concat ..

/-! ## The canonical top list and uniqueness -/

theorem insertLE_perm (a : Keyword) (l : List Keyword) :
    List.Perm (insertLE a l) (a :: l) := by
  induction l with
  | nil => exact List.Perm.refl _
  | cons b rest ih =>
    simp only [insertLE]
    split
    · exact List.Perm.refl _
    · exact List.Perm.trans (ih.cons b) (List.Perm.swap a b rest)

theorem kwLEb_total (a b : Keyword) : kwLEb a b = true ∨ kwLEb b a = true := by
  simp only [kwLEb, Bool.or_eq_true, Bool.and_eq_true, decide_eq_true_eq]
  have hs := strCompare_swap a.Str b.Str
  rcases strCompare_vals a.Str b.Str with hv | hv | hv <;>
    rcases Int.lt_trichotomy a.Weight b.Weight with hw | hw | hw <;> omega

theorem insertLE_sorted (a : Keyword) (l : List Keyword)
    (h : List.Pairwise (fun x y => kwLEb x y = true) l) :
    List.Pairwise (fun x y => kwLEb x y = true) (insertLE a l) := by
  induction l with
  | nil => exact List.pairwise_singleton _ _
  | cons b rest ih =>
    rw [List.pairwise_cons] at h
    obtain ⟨hb, hrest⟩ := h
    simp only [insertLE]
    split
    · rename_i hab
      rw [List.pairwise_cons]
      refine ⟨?_, List.pairwise_cons.mpr ⟨hb, hrest⟩⟩
      intro c hc
      rcases List.mem_cons.mp hc with rfl | hc
      · exact hab
      · -- kwLEb is transitive enough through b
        have hbc := hb c hc
        simp only [kwLEb, Bool.or_eq_true, Bool.and_eq_true, decide_eq_true_eq] at hab hbc ⊢
        rcases hab with h1 | ⟨h1, h1s⟩ <;> rcases hbc with h2 | ⟨h2, h2s⟩
        · left; omega
        · left; omega
        · left; omega
        · right
          refine ⟨by omega, ?_⟩
          rcases strCompare_vals a.Str b.Str with hv | hv | hv <;>
            rcases strCompare_vals b.Str c.Str with hv2 | hv2 | hv2 <;>
              try omega
          all_goals try (rw [strCompare_eq_zero_iff.mp hv]; omega)
          all_goals try (rw [← strCompare_eq_zero_iff.mp hv2]; omega)
          have := strCompare_trans_neg (by omega : strCompare a.Str b.Str < 0)
            (by omega : strCompare b.Str c.Str < 0)
          omega
    · rename_i hab
      rw [List.pairwise_cons]
      refine ⟨?_, ih hrest⟩
      intro c hc
      have hc' : c ∈ a :: rest := (insertLE_perm a rest).mem_iff.mp hc
      rcases List.mem_cons.mp hc' with rfl | hc'
      · rcases kwLEb_total b c with h0 | h0
        · exact h0
        · exact absurd h0 (by simpa using hab)
      · exact hb c hc'

theorem sortKW_perm (l : List Keyword) : List.Perm (sortKW l) l := by
  induction l with
  | nil => exact List.Perm.refl _
  | cons a rest ih =>
    exact List.Perm.trans (insertLE_perm a (sortKW rest)) (ih.cons a)

theorem sortKW_sorted (l : List Keyword) :
    List.Pairwise (fun x y => kwLEb x y = true) (sortKW l) := by
  induction l with
  | nil => exact List.Pairwise.nil
  | cons a rest ih => exact insertLE_sorted a (sortKW rest) ih

theorem kwLT_of_LEb_ne {a b : Keyword} (h : kwLEb a b = true) (hne : a.Str ≠ b.Str) :
    kwLT a b := by
  simp only [kwLEb, Bool.or_eq_true, Bool.and_eq_true, decide_eq_true_eq] at h
  unfold kwLT
  have hs : strCompare a.Str b.Str ≠ 0 := fun h0 => hne (strCompare_eq_zero_iff.mp h0)
  rcases h with h | ⟨h1, h2⟩
  · exact Or.inl h
  · exact Or.inr ⟨h1, by omega⟩

theorem TopOK_topBy {M : Int} {S : List Keyword}
    (hd : List.Pairwise (fun a b => a.Str ≠ b.Str) S) : TopOK M (topBy M S) S := by
  have hperm := sortKW_perm S
  have hsorted := sortKW_sorted S
  have hdS' : List.Pairwise (fun a b : Keyword => a.Str ≠ b.Str) (sortKW S) :=
    (hperm.pairwise_iff (fun h => Ne.symm h)).mpr hd
  have hlt : List.Pairwise kwLT (sortKW S) :=
    (hsorted.and hdS').imp (fun h => kwLT_of_LEb_ne h.1 h.2)
  unfold topBy
  refine ⟨hlt.sublist (List.take_sublist _ _), ?_, ?_, ?_⟩
  · intro j hj
    exact hperm.mem_iff.mp ((List.take_sublist _ _).mem hj)
  · rw [List.length_take, hperm.length_eq]
  · intro k hk
    by_cases hkt : k ∈ (sortKW S).take M.toNat
    · exact Or.inl hkt
    · have hks : k ∈ sortKW S := hperm.mem_iff.mpr hk
      have hkd : k ∈ (sortKW S).drop M.toNat := by
        have hsplit2 : k ∈ (sortKW S).take M.toNat ++ (sortKW S).drop M.toNat := by
          rw [List.take_append_drop]
          exact hks
        rcases List.mem_append.mp hsplit2 with h0 | h0
        · exact absurd h0 hkt
        · exact h0
      refine Or.inr ?_
      intro j hj
      have hpa := hlt
      rw [← List.take_append_drop M.toNat (sortKW S), List.pairwise_append] at hpa
      exact hpa.2.2 j hj k hkd

theorem TopOK_subset {M : Int} {s1 s2 S : List Keyword}
    (h1 : TopOK M s1 S) (h2 : TopOK M s2 S) : s1 ⊆ s2 := by
  obtain ⟨hs1, hm1, hl1, hd1⟩ := h1
  obtain ⟨hs2, hm2, hl2, hd2⟩ := h2
  intro k hk
  by_contra hk2
  have hdomk : ∀ j ∈ s2, kwLT j k := by
    rcases hd2 k (hm1 k hk) with h0 | h0
    · exact absurd h0 hk2
    · exact h0
  have hsub : s2 ⊆ s1 := by
    intro j hj
    rcases hd1 j (hm2 j hj) with h0 | h0
    · exact h0
    · exact absurd (hdomk j hj) (fun hc => kwLT_asymm hc (h0 k hk))
  have hnodup2 : s2.Nodup := hs2.imp (fun h => kwLT_ne h)
  have hknodup : (k :: s2).Nodup := by
    rw [List.nodup_cons]
    exact ⟨hk2, hnodup2⟩
  have hsub' : (k :: s2) ⊆ s1 := by
    intro j hj
    rcases List.mem_cons.mp hj with rfl | hj
    · exact hk
    · exact hsub hj
  have := (List.Nodup.subperm hknodup hsub').length_le
  rw [List.length_cons] at this
  omega

theorem TopOK_unique {M : Int} {s1 s2 S : List Keyword}
    (h1 : TopOK M s1 S) (h2 : TopOK M s2 S) : s1 = s2 := by
  have hsub1 := TopOK_subset h1 h2
  have hnodup1 : s1.Nodup := h1.1.imp (fun h => kwLT_ne h)
  have hperm : List.Perm s1 s2 :=
    (List.Nodup.subperm hnodup1 hsub1).perm_of_length_le (by
      rw [h1.2.2.1, h2.2.2.1])
  haveI : IsAntisymm Keyword kwLT := ⟨fun a b ha hb => (kwLT_asymm ha hb).elim⟩
  exact List.eq_of_perm_of_sorted hperm h1.1 h2.1

theorem TopOK_eq_topBy {M : Int} {s S : List Keyword}
    (h : TopOK M s S) (hd : List.Pairwise (fun a b => a.Str ≠ b.Str) S) :
    s = topBy M S :=
  TopOK_unique h (TopOK_topBy hd)

/-! ## Prefix order helpers -/

theorem prefTrans {α : Type} {a b c : List α} (h1 : a <+: b) (h2 : b <+: c) : a <+: c := by
  obtain ⟨x, hx⟩ := h1
  obtain ⟨y, hy⟩ := h2
  exact ⟨x ++ y, by rw [← List.append_assoc, hx, hy]⟩

theorem prefAppend {α : Type} (a b : List α) : a <+: a ++ b := ⟨b, rfl⟩

theorem prefLength {α : Type} {a b : List α} (h : a <+: b) : a.length ≤ b.length := by
  obtain ⟨x, hx⟩ := h
  rw [← hx]
  simp

theorem prefGetD {a b : List Nat} (h : a <+: b) {i : Nat} (hi : i < a.length) :
    b.getD i 0 = a.getD i 0 := by
  obtain ⟨x, hx⟩ := h
  rw [← hx]
  exact List.getD_append _ _ _ _ hi

theorem prefEqOfLength {α : Type} {a b : List α} (h : a <+: b)
    (hl : b.length ≤ a.length) : a = b := by
  obtain ⟨x, hx⟩ := h
  have hx0 : x = [] := by
    have := congrArg List.length hx
    simp at this
    exact List.eq_nil_of_length_eq_zero (by omega)
  rw [← hx, hx0, List.append_nil]

theorem prefSnoc {p k : List Nat} (h : p <+: k) (hl : p.length < k.length) :
    p ++ [k.getD p.length 0] <+: k := by
  obtain ⟨x, hx⟩ := h
  cases x with
  | nil =>
    exfalso
    rw [← hx] at hl
    simp at hl
  | cons c t =>
    refine ⟨t, ?_⟩
    have hc : k.getD p.length 0 = c := by
      rw [← hx, List.getD_append_right _ _ _ _ (le_refl p.length)]
      simp
    rw [hc, ← hx]
    simp

theorem prefRuneAt {p k : List Nat} {c : Nat} (h : p ++ [c] <+: k) :
    k.getD p.length 0 = c ∧ p.length < k.length := by
  have h1 : (p ++ [c]).length ≤ k.length := prefLength h
  rw [List.length_append, List.length_singleton] at h1
  constructor
  · rw [prefGetD h (by rw [List.length_append, List.length_singleton]; omega)]
    rw [List.getD_append_right _ _ _ _ (le_refl p.length)]
    simp
  · omega

theorem prefTake {α : Type} (n : Nat) (l : List α) : l.take n <+: l :=
  ⟨l.drop n, List.take_append_drop n l⟩

/-! ## Basic facts about the invariant -/

theorem subKWs_mk (key : Option Keyword) (next : List (Nat × Node)) (sorted : List Keyword) :
    (Node.mk key next sorted).subKWs = key.toList ++ subKWsList next := by
  rw [Node.subKWs]

theorem SInv_def (M : Int) (p : List Nat) (key : Option Keyword)
    (next : List (Nat × Node)) (sorted : List Keyword) :
    SInv M p (Node.mk key next sorted) ↔
      (match key with
       | some k => KwWF k ∧ p <+: k.str ∧ (next ≠ [] → k.str.length = p.length)
       | none => next ≠ [])
      ∧ (WSmallL (Node.mk key next sorted).subKWs →
          TopOK M sorted (Node.mk key next sorted).subKWs)
      ∧ List.Pairwise (fun a b : Nat × Node => a.1 ≠ b.1) next
      ∧ SInvL M p next := Iff.rfl

theorem SInvL_mem {M : Int} {p : List Nat} {l : List (Nat × Node)}
    (h : SInvL M p l) {c : Nat} {n : Node} (hmem : (c, n) ∈ l) :
    SInv M (p ++ [c]) n ∧ ∀ k ∈ n.subKWs, (p ++ [c]) <+: k.str := by
  induction l with
  | nil => cases hmem
  | cons hd rest ih =>
    obtain ⟨c', n'⟩ := hd
    rw [SInvL] at h
    rcases List.mem_cons.mp hmem with heq | hmem'
    · obtain ⟨h1, h2⟩ := Prod.mk.injEq .. ▸ heq
      subst h1
      subst h2
      exact h.1
    · exact ih h.2 hmem'

theorem subKWsList_mem {l : List (Nat × Node)} {k : Keyword}
    (h : k ∈ subKWsList l) : ∃ c n, (c, n) ∈ l ∧ k ∈ n.subKWs := by
  induction l with
  | nil => cases h
  | cons hd rest ih =>
    obtain ⟨c', n'⟩ := hd
    rw [subKWsList] at h
    rcases List.mem_append.mp h with h0 | h0
    · exact ⟨c', n', List.mem_cons_self _ _, h0⟩
    · obtain ⟨c, n, hm, hk⟩ := ih h0
      exact ⟨c, n, List.mem_cons_of_mem _ hm, hk⟩

theorem subKWsList_mem_of {l : List (Nat × Node)} {c : Nat} {n : Node} {k : Keyword}
    (hmem : (c, n) ∈ l) (hk : k ∈ n.subKWs) : k ∈ subKWsList l := by
  induction l with
  | nil => cases hmem
  | cons hd rest ih =>
    obtain ⟨c', n'⟩ := hd
    rw [subKWsList]
    rcases List.mem_cons.mp hmem with heq | hmem'
    · obtain ⟨h1, h2⟩ := Prod.mk.injEq .. ▸ heq
      subst h1
      subst h2
      exact List.mem_append.mpr (Or.inl hk)
    · exact List.mem_append.mpr (Or.inr (ih hmem'))

theorem SInv_subKW_pref {M : Int} {p : List Nat} {n : Node}
    (h : SInv M p n) : ∀ k ∈ n.subKWs, p <+: k.str := by
  obtain ⟨key, next, sorted⟩ := n
  rw [SInv_def] at h
  obtain ⟨hkey, _, _, hl⟩ := h
  intro k hk
  rw [subKWs_mk] at hk
  rcases List.mem_append.mp hk with h0 | h0
  · cases key with
    | some k0 =>
      rw [Option.toList_some, List.mem_singleton] at h0
      subst h0
      exact hkey.2.1
    | none => cases h0
  · obtain ⟨c, ch, hmem, hkch⟩ := subKWsList_mem h0
    exact prefTrans (prefAppend p [c]) ((SInvL_mem hl hmem).2 k hkch)

theorem Node.induct (motive : Node → Prop)
    (h : ∀ key next sorted,
      (∀ c n, (c, n) ∈ next → motive n) → motive (Node.mk key next sorted)) :
    ∀ n, motive n
  | .mk key next sorted =>
    h key next sorted (fun c n hmem => Node.induct motive h n)
termination_by n => sizeOf n
decreasing_by
  have h1 := List.sizeOf_lt_of_mem hmem
  simp only [Prod.mk.sizeOf_spec] at h1
  simp only [Node.mk.sizeOf_spec]
  omega

theorem SInv_subKW_wf {M : Int} (n : Node) :
    ∀ p, SInv M p n → ∀ k ∈ n.subKWs, KwWF k := by
  induction n using Node.induct with
  | h key next sorted ih =>
    intro p h k hk
    rw [SInv_def] at h
    obtain ⟨hkey, _, _, hl⟩ := h
    rw [subKWs_mk] at hk
    rcases List.mem_append.mp hk with h0 | h0
    · cases key with
      | some k0 =>
        rw [Option.toList_some, List.mem_singleton] at h0
        subst h0
        exact hkey.1
      | none => cases h0
    · obtain ⟨c, ch, hmem, hkch⟩ := subKWsList_mem h0
      exact ih c ch hmem (p ++ [c]) (SInvL_mem hl hmem).1 k hkch

theorem SInv_child_rune {M : Int} {p : List Nat} {l : List (Nat × Node)}
    (hl : SInvL M p l) {c : Nat} {n : Node} (hmem : (c, n) ∈ l) :
    ∀ k ∈ n.subKWs, k.str.getD p.length 0 = c ∧ p.length < k.str.length := by
  intro k hk
  exact prefRuneAt ((SInvL_mem hl hmem).2 k hk)

theorem subKWsList_pairwise {M : Int} {p : List Nat} {l : List (Nat × Node)}
    (hd : List.Pairwise (fun a b : Nat × Node => a.1 ≠ b.1) l)
    (hl : SInvL M p l)
    (hin : ∀ c n, (c, n) ∈ l →
      List.Pairwise (fun a b : Keyword => a.str ≠ b.str) n.subKWs) :
    List.Pairwise (fun a b : Keyword => a.str ≠ b.str) (subKWsList l) := by
  induction l with
  | nil => exact List.Pairwise.nil
  | cons hd0 rest ih =>
    obtain ⟨c, n⟩ := hd0
    rw [subKWsList]
    rw [List.pairwise_cons] at hd
    rw [SInvL] at hl
    rw [List.pairwise_append]
    refine ⟨hin c n (List.mem_cons_self _ _), ?_, ?_⟩
    · exact ih hd.2 hl.2 (fun c' n' hm => hin c' n' (List.mem_cons_of_mem _ hm))
    · intro a ha b hb
      obtain ⟨c', n', hm', hb'⟩ := subKWsList_mem hb
      have hca := SInv_child_rune (M := M) (by rw [SInvL]; exact hl) (List.mem_cons_self _ _) a ha
      have hcb := SInv_child_rune (M := M) (by rw [SInvL]; exact hl)
        (List.mem_cons_of_mem _ hm') b hb'
      intro heq
      have hcc' : c ≠ c' := hd.1 (c', n') hm'
      rw [heq] at hca
      rw [hca.1] at hcb
      exact hcc' hcb.1

theorem SInv_subKW_pairwise {M : Int} (n : Node) :
    ∀ p, SInv M p n →
      List.Pairwise (fun a b : Keyword => a.str ≠ b.str) n.subKWs := by
  induction n using Node.induct with
  | h key next sorted ih =>
    intro p h
    have h' := h
    rw [SInv_def] at h'
    obtain ⟨hkey, _, hdk, hl⟩ := h'
    rw [subKWs_mk]
    rw [List.pairwise_append]
    refine ⟨?_, ?_, ?_⟩
    · cases key <;> simp
    · exact subKWsList_pairwise hdk hl
        (fun c ch hm => ih c ch hm (p ++ [c]) (SInvL_mem hl hm).1)
    · intro a ha b hb
      cases key with
      | none => cases ha
      | some k0 =>
        rw [Option.toList_some, List.mem_singleton] at ha
        subst ha
        obtain ⟨c, ch, hm, hb'⟩ := subKWsList_mem hb
        have hnext : next ≠ [] := by
          intro h0
          rw [h0] at hm
          cases hm
        have hlen : a.str.length = p.length := hkey.2.2 hnext
        have hblen : p.length < b.str.length := (SInv_child_rune hl hm b hb').2
        intro heq
        rw [heq] at hlen
        omega

theorem SInv_subKW_pairwiseStr {M : Int} {p : List Nat} {n : Node} (h : SInv M p n) :
    List.Pairwise (fun a b : Keyword => a.Str ≠ b.Str) n.subKWs := by
  have h1 := SInv_subKW_pairwise n p h
  have h2 := SInv_subKW_wf n p h
  refine List.Pairwise.imp_of_mem ?_ h1
  intro a b ha hb hne heq
  have ha' := (h2 a ha).1
  have hb' := (h2 b hb).1
  rw [ha', hb', heq] at hne
  exact hne rfl

/-! ## Children list operations and the invariant -/

theorem lookupA_mem {c : Nat} {l : List (Nat × Node)} {n : Node}
    (h : lookupA c l = some n) : (c, n) ∈ l := by
  induction l with
  | nil => cases h
  | cons hd rest ih =>
    obtain ⟨c', n'⟩ := hd
    simp only [lookupA] at h
    split at h
    · rename_i heq
      rw [Option.some_inj] at h
      subst h
      subst heq
      exact List.mem_cons_self _ _
    · exact List.mem_cons_of_mem _ (ih h)

theorem lookupA_none_not_mem {c : Nat} {l : List (Nat × Node)}
    (h : lookupA c l = none) : ∀ n, (c, n) ∉ l := by
  induction l with
  | nil => intro n hn; cases hn
  | cons hd rest ih =>
    obtain ⟨c', n'⟩ := hd
    simp only [lookupA] at h
    split at h
    · cases h
    · rename_i hne
      intro n hn
      rcases List.mem_cons.mp hn with heq | hn'
      · obtain ⟨h1, _⟩ := Prod.mk.injEq .. ▸ heq
        exact hne h1.symm
      · exact ih h n hn'

theorem insertA_mem_cases {c : Nat} {n : Node} {l : List (Nat × Node)} {b : Nat × Node}
    (h : b ∈ insertA c n l) : b = (c, n) ∨ b ∈ l := by
  induction l with
  | nil =>
    rw [insertA, List.mem_singleton] at h
    exact Or.inl h
  | cons hd rest ih =>
    obtain ⟨c', n'⟩ := hd
    simp only [insertA] at h
    split at h
    · rcases List.mem_cons.mp h with heq | h'
      · exact Or.inl heq
      · exact Or.inr (List.mem_cons_of_mem _ h')
    · rcases List.mem_cons.mp h with heq | h'
      · exact Or.inr (heq ▸ List.mem_cons_self _ _)
      · rcases ih h' with h0 | h0
        · exact Or.inl h0
        · exact Or.inr (List.mem_cons_of_mem _ h0)

theorem insertA_pairwise {c : Nat} {n : Node} {l : List (Nat × Node)}
    (h : List.Pairwise (fun a b : Nat × Node => a.1 ≠ b.1) l) :
    List.Pairwise (fun a b : Nat × Node => a.1 ≠ b.1) (insertA c n l) := by
  induction l with
  | nil => exact List.pairwise_singleton _ _
  | cons hd rest ih =>
    obtain ⟨c', n'⟩ := hd
    rw [List.pairwise_cons] at h
    obtain ⟨hhd, hrest⟩ := h
    simp only [insertA]
    split
    · rename_i heq
      subst heq
      rw [List.pairwise_cons]
      exact ⟨hhd, hrest⟩
    · rename_i hne
      rw [List.pairwise_cons]
      refine ⟨?_, ih hrest⟩
      intro b hb
      rcases insertA_mem_cases hb with rfl | hb'
      · exact hne
      · exact hhd b hb'

theorem SInvL_insertA {M : Int} {p : List Nat} {l : List (Nat × Node)}
    {c : Nat} {n : Node} (h : SInvL M p l) (hn : SInv M (p ++ [c]) n)
    (hpre : ∀ k ∈ n.subKWs, (p ++ [c]) <+: k.str) :
    SInvL M p (insertA c n l) := by
  induction l with
  | nil => exact ⟨⟨hn, hpre⟩, trivial⟩
  | cons hd rest ih =>
    obtain ⟨c', n'⟩ := hd
    rw [SInvL] at h
    simp only [insertA]
    split
    · rename_i heq
      subst heq
      exact ⟨⟨hn, hpre⟩, h.2⟩
    · exact ⟨h.1, ih h.2⟩

theorem subKWsList_append (l1 l2 : List (Nat × Node)) :
    subKWsList (l1 ++ l2) = subKWsList l1 ++ subKWsList l2 := by
  induction l1 with
  | nil => rfl
  | cons hd rest ih =>
    obtain ⟨c', n'⟩ := hd
    rw [List.cons_append, subKWsList, subKWsList, ih, List.append_assoc]

theorem subKWsList_insertA_none {c : Nat} {n : Node} {l : List (Nat × Node)}
    (h : lookupA c l = none) :
    subKWsList (insertA c n l) = subKWsList l ++ n.subKWs := by
  induction l with
  | nil =>
    rw [insertA, subKWsList, subKWsList, subKWsList]
    simp
  | cons hd rest ih =>
    obtain ⟨c', n'⟩ := hd
    simp only [lookupA] at h
    split at h
    · cases h
    · simp only [insertA]
      rename_i hne
      rw [if_neg (by exact hne)]
      rw [subKWsList, subKWsList, ih h, List.append_assoc]

theorem lookupA_split {c : Nat} {l : List (Nat × Node)} {ch : Node}
    (h : lookupA c l = some ch) (n : Node) :
    ∃ l1 l2, l = l1 ++ (c, ch) :: l2 ∧ insertA c n l = l1 ++ (c, n) :: l2 := by
  induction l with
  | nil => cases h
  | cons hd rest ih =>
    obtain ⟨c', n'⟩ := hd
    simp only [lookupA] at h
    split at h
    · rename_i heq
      rw [Option.some_inj] at h
      subst h
      subst heq
      refine ⟨[], rest, by simp, ?_⟩
      simp [insertA]
    · rename_i hne
      obtain ⟨l1, l2, hl, hi⟩ := ih h
      refine ⟨(c', n') :: l1, l2, by rw [hl]; rfl, ?_⟩
      simp only [insertA]
      rw [if_neg (by exact hne), hi]
      rfl

/-! ## Ranking updates at fork nodes -/

theorem pairStrne {key k2 : Keyword} (hne : key.Str ≠ k2.Str) :
    List.Pairwise (fun a b : Keyword => a.Str ≠ b.Str) [key, k2] := by
  simp [hne]

theorem topok_step_fresh {M : Int} {k : Keyword} {s S : List Keyword}
    (h : TopOK M s S) (hfresh : ∀ j ∈ S, j.Str ≠ k.Str) (hk : WSmall k)
    (hS : WSmallL S) (hdS : List.Pairwise (fun a b : Keyword => a.Str ≠ b.Str) S) :
    TopOK M (adjustSorted k M s) (k :: S) :=
  TopOK_adjust h hfresh hk hS hdS

theorem topokA {M : Int} {key k2 : Keyword} (hne : key.Str ≠ k2.Str)
    (hk : WSmall key) (hk2 : WSmall k2) {s : List Keyword}
    (hcur : TopOK M s [k2] ∨ s = []) :
    TopOK M (adjustSorted k2 M (adjustSorted key M s)) [key, k2] := by
  have hS2 : WSmallL [key, k2] := by
    intro j hj
    rcases List.mem_cons.mp hj with rfl | hj
    · exact hk
    · rw [List.mem_singleton] at hj
      subst hj
      exact hk2
  rcases hcur with h | rfl
  · have h1 : TopOK M (adjustSorted key M s) [key, k2] :=
      topok_step_fresh h (by
        intro j hj
        rw [List.mem_singleton] at hj
        subst hj
        exact fun he => hne he.symm) hk
        (fun j hj => by rw [List.mem_singleton] at hj; subst hj; exact hk2)
        (List.pairwise_singleton _ _)
    rw [TopOK_absorb h1 (by simp) hk2 hS2 (pairStrne hne)]
    exact h1
  · have h1 : TopOK M (adjustSorted key M []) [key] :=
      topok_step_fresh (TopOK_nil M) (by simp) hk (by intro j hj; cases hj)
        List.Pairwise.nil
    have h2 : TopOK M (adjustSorted k2 M (adjustSorted key M [])) [k2, key] :=
      topok_step_fresh h1 (by
        intro j hj
        rw [List.mem_singleton] at hj
        subst hj
        exact hne) hk2
        (fun j hj => by rw [List.mem_singleton] at hj; subst hj; exact hk)
        (List.pairwise_singleton _ _)
    exact TopOK_perm_right h2 (List.Perm.swap key k2 [])

theorem topokB {M : Int} {key k2 : Keyword} (hne : key.Str ≠ k2.Str)
    (hk : WSmall key) (hk2 : WSmall k2) {s : List Keyword}
    (hcur : TopOK M s [k2] ∨ s = []) :
    TopOK M (adjustSorted key M (adjustSorted k2 M s)) [key, k2] := by
  have hmid : TopOK M (adjustSorted k2 M s) [k2] := by
    rcases hcur with h | rfl
    · rw [TopOK_absorb h (by simp) hk2
        (fun j hj => by rw [List.mem_singleton] at hj; subst hj; exact hk2)
        (List.pairwise_singleton _ _)]
      exact h
    · exact topok_step_fresh (TopOK_nil M) (by simp) hk2 (by intro j hj; cases hj)
        List.Pairwise.nil
  exact topok_step_fresh hmid (by
      intro j hj
      rw [List.mem_singleton] at hj
      subst hj
      exact fun he => hne he.symm) hk
    (fun j hj => by rw [List.mem_singleton] at hj; subst hj; exact hk2)
    (List.pairwise_singleton _ _)

theorem topokC {M : Int} {key k2 : Keyword} (hne : key.Str ≠ k2.Str)
    (hk : WSmall key) (hk2 : WSmall k2) {s : List Keyword}
    (hcur : TopOK M s [k2] ∨ s = []) :
    TopOK M (adjustSorted k2 M (adjustSorted key M
      (adjustSorted k2 M (adjustSorted key M s)))) [key, k2] := by
  have hS2 : WSmallL [key, k2] := by
    intro j hj
    rcases List.mem_cons.mp hj with rfl | hj
    · exact hk
    · rw [List.mem_singleton] at hj
      subst hj
      exact hk2
  have h1 : TopOK M (adjustSorted k2 M (adjustSorted key M s)) [key, k2] :=
    topokA hne hk hk2 hcur
  rw [TopOK_absorb h1 (by simp) hk hS2 (pairStrne hne)]
  rw [TopOK_absorb h1 (by simp) hk2 hS2 (pairStrne hne)]
  exact h1

theorem takeSucc (l : List Nat) (n : Nat) (h : n < l.length) :
    l.take (n + 1) = l.take n ++ [l.getD n 0] := by
  induction l generalizing n with
  | nil => simp at h
  | cons a t ih =>
    cases n with
    | zero => simp
    | succ n =>
      simp only [List.take_succ_cons, List.getD_cons_succ]
      rw [ih n (by simpa using h)]
      rfl

theorem KwStrne {a b : Keyword} (ha : KwWF a) (hb : KwWF b) (h : a.str ≠ b.str) :
    a.Str ≠ b.Str := fun he => h (by rw [ha.1, hb.1, he])

theorem prefRefl {α : Type} (l : List α) : l <+: l := ⟨[], List.append_nil l⟩

theorem newNode_some (k : Keyword) : newNode (some k) = Node.mk (some k) [] [k] := rfl

theorem newNode_none_eq : newNode none = Node.mk none [] [] := rfl

theorem splitChain_SInv (key k2 : Keyword) (M : Int) (hM : 1 ≤ M)
    (hwf : KwWF key) (hwf2 : KwWF k2) (hne : k2.str ≠ key.str) :
    ∀ rem cur p,
      rem ≤ key.str.length →
      p = key.str.take (key.str.length - rem) →
      p <+: k2.str →
      cur.next = [] →
      ((cur.key = some k2 ∧ (WSmallL [k2] → TopOK M cur.sorted [k2]))
        ∨ (cur.key = none ∧ cur.sorted = [])) →
      ∃ now' cnt, splitChain key k2 M rem cur = some (now', cnt) ∧
        SInv M p now' ∧ List.Perm now'.subKWs [key, k2] := by
  have hStrne : key.Str ≠ k2.Str := KwStrne hwf hwf2 (Ne.symm hne)
  intro rem
  induction rem with
  | zero =>
    intro cur p hrem hp hpre hnext hdisj
    obtain ⟨ck, cn, cs⟩ := cur
    have hcn : cn = [] := hnext
    subst hcn
    have hp' : p = key.str := by rw [hp, Nat.sub_zero, List.take_length]
    subst hp'
    have hlt : key.str.length < k2.str.length := by
      rcases Nat.lt_or_ge key.str.length k2.str.length with h2 | h2
      · exact h2
      · exact absurd (prefEqOfLength hpre h2).symm hne
    simp only [splitChain, Node.next, Node.sorted, insertA]
    rw [if_pos hlt]
    refine ⟨_, _, rfl, ?_, ?_⟩
    · rw [SInv_def]
      refine ⟨⟨hwf, prefRefl _, fun _ => rfl⟩, ?_, List.pairwise_singleton _ _, ?_⟩
      · intro hws
        have hk : WSmall key := hws key (by simp [subKWs_mk, subKWsList, newNode])
        have hk2 : WSmall k2 := hws k2 (by simp [subKWs_mk, subKWsList, newNode])
        have hcur' : TopOK M cs [k2] ∨ cs = [] := by
          rcases hdisj with ⟨hck, htop⟩ | ⟨hck, hcs⟩
          · exact Or.inl (htop (fun j hj => by
              rw [List.mem_singleton] at hj
              subst hj
              exact hk2))
          · exact Or.inr hcs
        have hres := topokA hStrne hk hk2 hcur'
        exact TopOK_perm_right hres (List.Perm.refl _)
      · refine ⟨⟨?_, ?_⟩, trivial⟩
        · rw [newNode_some, SInv_def]
          refine ⟨⟨hwf2, prefSnoc hpre hlt, fun h0 => absurd rfl h0⟩, ?_,
            List.Pairwise.nil, trivial⟩
          intro hws
          exact TopOK_single hM k2
        · intro k hk
          have hkk : k = k2 := by
            simpa [subKWs_mk, subKWsList, newNode] using hk
          rw [hkk]
          exact prefSnoc hpre hlt
    · exact List.Perm.refl _
  | succ rem ih =>
    intro cur p hrem hp hpre hnext hdisj
    obtain ⟨ck, cn, cs⟩ := cur
    have hcn : cn = [] := hnext
    subst hcn
    have hposlt : key.str.length - (rem + 1) < key.str.length := by
      have := hwf.2
      have hlen : 0 < key.str.length := List.length_pos_of_ne_nil hwf.2
      omega
    have hplen : p.length = key.str.length - (rem + 1) := by
      rw [hp, List.length_take]
      omega
    have hptake : p <+: key.str := by
      rw [hp]
      exact prefTake _ _
    by_cases hchain : key.str.length - (rem + 1) < k2.str.length ∧
        key.str.getD (key.str.length - (rem + 1)) 0
          = k2.str.getD (key.str.length - (rem + 1)) 0
    · -- chain step: both keywords agree on the next rune
      have hp' : p ++ [key.str.getD (key.str.length - (rem + 1)) 0]
          = key.str.take (key.str.length - rem) := by
        have h1 : key.str.length - rem = (key.str.length - (rem + 1)) + 1 := by omega
        rw [h1, takeSucc key.str _ hposlt, ← hp]
      have hpre' : p ++ [key.str.getD (key.str.length - (rem + 1)) 0] <+: k2.str := by
        have h1 := prefSnoc hpre (show p.length < k2.str.length by omega)
        rw [hplen, ← hchain.2] at h1
        exact h1
      obtain ⟨inner, cnt, hrec, hsinv, hperm⟩ := ih (newNode none)
        (p ++ [key.str.getD (key.str.length - (rem + 1)) 0])
        (by omega) hp' hpre' rfl (Or.inr ⟨rfl, rfl⟩)
      simp only [splitChain, Node.next, Node.sorted, insertA]
      rw [if_pos hchain, hrec]
      refine ⟨_, _, rfl, ?_, ?_⟩
      · rw [SInv_def]
        refine ⟨by simp, ?_, List.pairwise_singleton _ _, ?_⟩
        · intro hws
          have hsub : (Node.mk none
              [(key.str.getD (key.str.length - (rem + 1)) 0, inner)]
              (adjustSorted k2 M (adjustSorted key M cs))).subKWs
              = inner.subKWs ++ [] := by
            rw [subKWs_mk]
            rfl
          rw [hsub, List.append_nil] at hws ⊢
          have hk : WSmall key := hws key (hperm.mem_iff.mpr (by simp))
          have hk2 : WSmall k2 := hws k2 (hperm.mem_iff.mpr (by simp))
          have hcur' : TopOK M cs [k2] ∨ cs = [] := by
            rcases hdisj with ⟨hck, htop⟩ | ⟨hck, hcs⟩
            · exact Or.inl (htop (fun j hj => by
                rw [List.mem_singleton] at hj
                subst hj
                exact hk2))
            · exact Or.inr hcs
          exact TopOK_perm_right (topokA hStrne hk hk2 hcur') hperm.symm
        · refine ⟨⟨hsinv, ?_⟩, trivial⟩
          exact SInv_subKW_pref hsinv
      · have hsub : (Node.mk none
            [(key.str.getD (key.str.length - (rem + 1)) 0, inner)]
            (adjustSorted k2 M (adjustSorted key M cs))).subKWs
            = inner.subKWs ++ [] := by
          rw [subKWs_mk]
          rfl
        rw [hsub, List.append_nil]
        exact hperm
    · by_cases h22 : key.str.length - (rem + 1) = k2.str.length
      · -- case 2.2: k2 terminates at the split point
        have hpk2 : p = k2.str := prefEqOfLength hpre (by omega)
        simp only [splitChain, Node.next, Node.sorted, insertA]
        rw [if_neg hchain, if_pos h22]
        refine ⟨_, _, rfl, ?_, ?_⟩
        · rw [SInv_def]
          refine ⟨⟨hwf2, hpre, fun _ => by omega⟩, ?_,
            List.pairwise_singleton _ _, ?_⟩
          · intro hws
            have hk : WSmall key := hws key (by simp [subKWs_mk, subKWsList, newNode])
            have hk2 : WSmall k2 := hws k2 (by simp [subKWs_mk, subKWsList, newNode])
            have hcur' : TopOK M cs [k2] ∨ cs = [] := by
              rcases hdisj with ⟨hck, htop⟩ | ⟨hck, hcs⟩
              · exact Or.inl (htop (fun j hj => by
                  rw [List.mem_singleton] at hj
                  subst hj
                  exact hk2))
              · exact Or.inr hcs
            have hres := topokB hStrne hk hk2 hcur'
            exact TopOK_perm_right hres (List.Perm.swap k2 key [])
          · refine ⟨⟨?_, ?_⟩, trivial⟩
            · rw [newNode_some, SInv_def]
              refine ⟨⟨hwf, ?_, fun h0 => absurd rfl h0⟩, ?_,
                List.Pairwise.nil, trivial⟩
              · have h1 := prefSnoc hptake (show p.length < key.str.length by omega)
                rw [hplen] at h1
                exact h1
              · intro hws
                exact TopOK_single hM key
            · intro k hk
              have hkk : k = key := by
                simpa [subKWs_mk, subKWsList, newNode] using hk
              rw [hkk]
              have h1 := prefSnoc hptake (show p.length < key.str.length by omega)
              rw [hplen] at h1
              exact h1
        · exact List.Perm.swap key k2 []
      · -- case 2.3: the keywords fork on different runes
        have h23lt : key.str.length - (rem + 1) < k2.str.length := by
          have h1 := prefLength hpre
          omega
        have hrne : key.str.getD (key.str.length - (rem + 1)) 0
            ≠ k2.str.getD (key.str.length - (rem + 1)) 0 := by
          intro h0
          exact hchain ⟨h23lt, h0⟩
        simp only [splitChain, Node.next, Node.sorted, insertA]
        rw [if_neg hchain, if_neg h22, if_pos h23lt]
        rw [if_neg hrne]
        refine ⟨_, _, rfl, ?_, ?_⟩
        · rw [SInv_def]
          refine ⟨by simp, ?_, ?_, ?_⟩
          · intro hws
            have hk : WSmall key := hws key (by simp [subKWs_mk, subKWsList, newNode])
            have hk2 : WSmall k2 := hws k2 (by simp [subKWs_mk, subKWsList, newNode])
            have hcur' : TopOK M cs [k2] ∨ cs = [] := by
              rcases hdisj with ⟨hck, htop⟩ | ⟨hck, hcs⟩
              · exact Or.inl (htop (fun j hj => by
                  rw [List.mem_singleton] at hj
                  subst hj
                  exact hk2))
              · exact Or.inr hcs
            have hres := topokC hStrne hk hk2 hcur'
            exact TopOK_perm_right hres (List.Perm.refl _)
          · exact List.pairwise_cons.mpr ⟨fun b hb => by
              rw [List.mem_singleton] at hb
              subst hb
              exact hrne, List.pairwise_singleton _ _⟩
          · refine ⟨⟨?_, ?_⟩, ⟨⟨?_, ?_⟩, trivial⟩⟩
            · rw [newNode_some, SInv_def]
              refine ⟨⟨hwf, ?_, fun h0 => absurd rfl h0⟩, ?_,
                List.Pairwise.nil, trivial⟩
              · have h1 := prefSnoc hptake (show p.length < key.str.length by omega)
                rw [hplen] at h1
                exact h1
              · intro hws
                exact TopOK_single hM key
            · intro k hk
              have hkk : k = key := by
                simpa [subKWs_mk, subKWsList, newNode] using hk
              rw [hkk]
              have h1 := prefSnoc hptake (show p.length < key.str.length by omega)
              rw [hplen] at h1
              exact h1
            · rw [newNode_some, SInv_def]
              refine ⟨⟨hwf2, ?_, fun h0 => absurd rfl h0⟩, ?_,
                List.Pairwise.nil, trivial⟩
              · have h1 := prefSnoc hpre (show p.length < k2.str.length by omega)
                rw [hplen] at h1
                exact h1
              · intro hws
                exact TopOK_single hM k2
            · intro k hk
              have hkk : k = k2 := by
                simpa [subKWs_mk, subKWsList, newNode] using hk
              rw [hkk]
              have h1 := prefSnoc hpre (show p.length < k2.str.length by omega)
              rw [hplen] at h1
              exact h1
        · exact List.Perm.refl _

theorem perm_snoc {α : Type} (l : List α) (x : α) : List.Perm (l ++ [x]) (x :: l) := by
  have h := @List.perm_middle α x l []
  simpa using h

theorem topok_insert_node {M : Int} {p : List Nat} {n : Node} {key : Keyword}
    (hs0 : SInv M p n) (hcol : ∀ k ∈ n.subKWs, k.str ≠ key.str)
    (hwf : KwWF key) {S' : List Keyword}
    (hperm : List.Perm S' (key :: n.subKWs))
    (htop : WSmallL n.subKWs → TopOK M n.sorted n.subKWs) :
    WSmallL S' → TopOK M (adjustSorted key M n.sorted) S' := by
  intro hws
  have hws' : WSmallL (key :: n.subKWs) := fun j hj => hws j (hperm.mem_iff.mpr hj)
  have hk : WSmall key := hws' key (List.mem_cons_self _ _)
  have hwsold : WSmallL n.subKWs := fun j hj => hws' j (List.mem_cons_of_mem _ hj)
  have hfresh : ∀ j ∈ n.subKWs, j.Str ≠ key.Str := fun j hj =>
    KwStrne (SInv_subKW_wf n p hs0 j hj) hwf (hcol j hj)
  have hres := TopOK_adjust (htop hwsold) hfresh hk hwsold (SInv_subKW_pairwiseStr hs0)
  exact TopOK_perm_right hres hperm.symm

theorem putNode_SInv (key : Keyword) (M : Int) (hM : 1 ≤ M) (hwf : KwWF key) :
    ∀ rem now p,
      rem ≤ key.str.length →
      p = key.str.take (key.str.length - rem) →
      SInv M p now →
      (∀ k ∈ now.subKWs, k.str ≠ key.str) →
      ∃ now' cnt, putNode key M rem now = some (now', cnt) ∧
        SInv M p now' ∧ List.Perm now'.subKWs (key :: now.subKWs) := by
  intro rem
  induction rem with
  | zero =>
    intro now p hrem hp hs hcol
    have hs0 := hs
    obtain ⟨nk, nn, ns⟩ := now
    have hp' : p = key.str := by rw [hp, Nat.sub_zero, List.take_length]
    subst hp'
    rw [SInv_def] at hs
    obtain ⟨hkey, htop, hdk, hl⟩ := hs
    cases nk with
    | some k2 =>
      have hk2ne : k2.str ≠ key.str := hcol k2 (by simp [subKWs_mk])
      have hnn : nn = [] := by
        by_contra hnn
        have hlen := hkey.2.2 hnn
        exact hk2ne (prefEqOfLength hkey.2.1 (by omega)).symm
      subst hnn
      have hlt : key.str.length < k2.str.length := by
        rcases Nat.lt_or_ge key.str.length k2.str.length with h2 | h2
        · exact h2
        · exact absurd (prefEqOfLength hkey.2.1 h2).symm hk2ne
      simp only [putNode, Node.key, Node.next, Node.sorted, insertA]
      rw [if_pos hlt]
      refine ⟨_, _, rfl, ?_, ?_⟩
      · rw [SInv_def]
        refine ⟨⟨hwf, prefRefl _, fun _ => rfl⟩, ?_, List.pairwise_singleton _ _, ?_⟩
        · exact topok_insert_node hs0 hcol hwf (List.Perm.refl _) htop
        · refine ⟨⟨?_, ?_⟩, trivial⟩
          · rw [newNode_some, SInv_def]
            refine ⟨⟨hkey.1, prefSnoc hkey.2.1 hlt, fun h0 => absurd rfl h0⟩, ?_,
              List.Pairwise.nil, trivial⟩
            intro hws
            exact TopOK_single hM k2
          · intro k hk
            have hkk : k = k2 := by
              simpa [subKWs_mk, subKWsList, newNode] using hk
            rw [hkk]
            exact prefSnoc hkey.2.1 hlt
      · exact List.Perm.refl _
    | none =>
      simp only [putNode, Node.key, Node.next, Node.sorted]
      refine ⟨_, _, rfl, ?_, ?_⟩
      · rw [SInv_def]
        refine ⟨⟨hwf, prefRefl _, fun _ => rfl⟩, ?_, hdk, hl⟩
        exact topok_insert_node hs0 hcol hwf (List.Perm.refl _) htop
      · exact List.Perm.refl _
  | succ rem ih =>
    intro now p hrem hp hs hcol
    have hs0 := hs
    obtain ⟨nk, nn, ns⟩ := now
    rw [SInv_def] at hs
    obtain ⟨hkey, htop, hdk, hl⟩ := hs
    have hposlt : key.str.length - (rem + 1) < key.str.length := by
      have hlen : 0 < key.str.length := List.length_pos_of_ne_nil hwf.2
      omega
    have hplen : p.length = key.str.length - (rem + 1) := by
      rw [hp, List.length_take]
      omega
    by_cases hempty : nn = []
    · subst hempty
      cases nk with
      | none => exact absurd rfl hkey
      | some k2 =>
        have hk2ne : k2.str ≠ key.str := hcol k2 (by simp [subKWs_mk])
        obtain ⟨now', cnt, hrec, hsinv, hperm⟩ :=
          splitChain_SInv key k2 M hM hwf hkey.1 hk2ne (rem + 1)
            (Node.mk (some k2) [] ns) p hrem hp hkey.2.1 rfl
            (Or.inl ⟨rfl, fun hws => htop (fun j hj => by
              have hj' : j = k2 := by simpa [subKWs_mk, subKWsList] using hj
              rw [hj']
              exact hws k2 (List.mem_singleton.mpr rfl))⟩)
        refine ⟨now', cnt, ?_, hsinv, hperm⟩
        simp only [putNode, Node.next, Node.key, List.isEmpty_nil, if_true]
        exact hrec
    · have hnnE : nn.isEmpty = false := by
        cases nn with
        | nil => exact absurd rfl hempty
        | cons a b => rfl
      cases hlook : lookupA (key.str.getD (key.str.length - (rem + 1)) 0) nn with
      | none =>
        simp only [putNode, Node.next, Node.key, Node.sorted, hnnE,
          Bool.false_eq_true, if_false, hlook]
        refine ⟨_, _, rfl, ?_, ?_⟩
        · rw [SInv_def]
          refine ⟨?_, ?_, insertA_pairwise hdk, ?_⟩
          · cases nk with
            | some k0 => exact ⟨hkey.1, hkey.2.1, fun _ => hkey.2.2 hempty⟩
            | none => exact insertA_ne_nil _ _ _
          · have hsub : (Node.mk nk
                (insertA (key.str.getD (key.str.length - (rem + 1)) 0)
                  (newNode (some key)) nn)
                (adjustSorted key M ns)).subKWs
                = nk.toList ++ (subKWsList nn ++ [key]) := by
              rw [subKWs_mk, subKWsList_insertA_none hlook]
              rfl
            have hperm2 : List.Perm (nk.toList ++ (subKWsList nn ++ [key]))
                (key :: (nk.toList ++ subKWsList nn)) := by
              have h1 : nk.toList ++ (subKWsList nn ++ [key])
                  = (nk.toList ++ subKWsList nn) ++ [key] := by
                rw [List.append_assoc]
              rw [h1]
              exact perm_snoc _ key
            rw [hsub]
            exact topok_insert_node hs0 hcol hwf hperm2 htop
          · refine SInvL_insertA hl ?_ ?_
            · rw [newNode_some, SInv_def]
              refine ⟨⟨hwf, ?_, fun h0 => absurd rfl h0⟩, ?_,
                List.Pairwise.nil, trivial⟩
              · have h1 := prefSnoc (hp ▸ prefTake _ _)
                  (show p.length < key.str.length by omega)
                rw [hplen] at h1
                exact h1
              · intro hws
                exact TopOK_single hM key
            · intro k hk
              have hkk : k = key := by
                simpa [subKWs_mk, subKWsList, newNode] using hk
              rw [hkk]
              have h1 := prefSnoc (hp ▸ prefTake _ _)
                (show p.length < key.str.length by omega)
              rw [hplen] at h1
              exact h1
        · have hsub : (Node.mk nk
              (insertA (key.str.getD (key.str.length - (rem + 1)) 0)
                (newNode (some key)) nn)
              (adjustSorted key M ns)).subKWs
              = nk.toList ++ (subKWsList nn ++ [key]) := by
            rw [subKWs_mk, subKWsList_insertA_none hlook]
            rfl
          rw [hsub, ← List.append_assoc]
          exact perm_snoc _ key
      | some child =>
        have hcmem := lookupA_mem hlook
        have hchild := SInvL_mem hl hcmem
        have hp' : p ++ [key.str.getD (key.str.length - (rem + 1)) 0]
            = key.str.take (key.str.length - rem) := by
          have h1 : key.str.length - rem = (key.str.length - (rem + 1)) + 1 := by omega
          rw [h1, takeSucc key.str _ hposlt, ← hp]
        obtain ⟨child', cnt, hrec, hsinv', hperm'⟩ := ih child
          (p ++ [key.str.getD (key.str.length - (rem + 1)) 0])
          (by omega) hp' hchild.1
          (fun k hk => hcol k (by
            rw [subKWs_mk]
            exact List.mem_append.mpr (Or.inr (subKWsList_mem_of hcmem hk))))
        obtain ⟨l1, l2, hnn12, hins12⟩ := lookupA_split hlook child'
        simp only [putNode, Node.next, Node.key, Node.sorted, hnnE,
          Bool.false_eq_true, if_false, hlook, hrec]
        refine ⟨_, _, rfl, ?_, ?_⟩
        · rw [SInv_def]
          refine ⟨?_, ?_, insertA_pairwise hdk, ?_⟩
          · cases nk with
            | some k0 => exact ⟨hkey.1, hkey.2.1, fun _ => hkey.2.2 hempty⟩
            | none => exact insertA_ne_nil _ _ _
          · have hsub : (Node.mk nk
                (insertA (key.str.getD (key.str.length - (rem + 1)) 0) child' nn)
                (adjustSorted key M ns)).subKWs
                = nk.toList ++ (subKWsList l1 ++ (child'.subKWs ++ subKWsList l2)) := by
              rw [subKWs_mk, hins12, subKWsList_append, subKWsList]
            have hold : (Node.mk nk nn ns).subKWs
                = nk.toList ++ (subKWsList l1 ++ (child.subKWs ++ subKWsList l2)) := by
              rw [subKWs_mk, hnn12, subKWsList_append, subKWsList]
            have hperm2 : List.Perm
                (nk.toList ++ (subKWsList l1 ++ (child'.subKWs ++ subKWsList l2)))
                (key :: (nk.toList ++ (subKWsList l1 ++ (child.subKWs ++ subKWsList l2)))) := by
              have h1 : List.Perm (child'.subKWs ++ subKWsList l2)
                  (key :: (child.subKWs ++ subKWsList l2)) := by
                have h2 := hperm'.append_right (subKWsList l2)
                exact h2
              have h3 : List.Perm (subKWsList l1 ++ (child'.subKWs ++ subKWsList l2))
                  (key :: (subKWsList l1 ++ (child.subKWs ++ subKWsList l2))) := by
                refine List.Perm.trans ((h1).append_left (subKWsList l1)) ?_
                exact List.perm_middle
              refine List.Perm.trans (h3.append_left nk.toList) ?_
              exact List.perm_middle
            rw [← hold] at hperm2
            rw [hsub]
            exact topok_insert_node hs0 hcol hwf hperm2 htop
          · refine SInvL_insertA hl hsinv' ?_
            exact SInv_subKW_pref hsinv'
        · have hsub : (Node.mk nk
              (insertA (key.str.getD (key.str.length - (rem + 1)) 0) child' nn)
              (adjustSorted key M ns)).subKWs
              = nk.toList ++ (subKWsList l1 ++ (child'.subKWs ++ subKWsList l2)) := by
            rw [subKWs_mk, hins12, subKWsList_append, subKWsList]
          have hold : (Node.mk nk nn ns).subKWs
              = nk.toList ++ (subKWsList l1 ++ (child.subKWs ++ subKWsList l2)) := by
            rw [subKWs_mk, hnn12, subKWsList_append, subKWsList]
          rw [hsub, hold]
          have h1 := hperm'.append_right (subKWsList l2)
          have h3 : List.Perm (subKWsList l1 ++ (child'.subKWs ++ subKWsList l2))
              (key :: (subKWsList l1 ++ (child.subKWs ++ subKWsList l2))) := by
            refine List.Perm.trans ((h1).append_left (subKWsList l1)) ?_
            exact List.perm_middle
          refine List.Perm.trans (h3.append_left nk.toList) ?_
          exact List.perm_middle

theorem lookupA_of_mem {c : Nat} {ch : Node} {l : List (Nat × Node)}
    (hd : List.Pairwise (fun a b => a.1 ≠ b.1) l) (hm : (c, ch) ∈ l) :
    lookupA c l = some ch := by
  induction l with
  | nil => cases hm
  | cons a tl ih =>
    obtain ⟨r, n⟩ := a
    rcases List.mem_cons.mp hm with h1 | h1
    · rw [Prod.mk.injEq] at h1
      rw [lookupA, if_pos h1.1.symm, h1.2]
    · have hne : r ≠ c := (List.pairwise_cons.mp hd).1 (c, ch) h1
      rw [lookupA, if_neg hne]
      exact ih (List.pairwise_cons.mp hd).2 h1

theorem splitChain_collision_none (key k2 : Keyword) (M : Int)
    (hlen : 1 ≤ key.str.length) (hkk : k2.str = key.str) :
    ∀ rem cur, splitChain key k2 M rem cur = none := by
  intro rem
  induction rem with
  | zero =>
    intro cur
    simp only [splitChain]
    rw [if_neg]
    rw [hkk]
    omega
  | succ rem ih =>
    intro cur
    simp only [splitChain]
    rw [if_pos, ih (newNode none)]
    constructor
    · rw [hkk]
      omega
    · rw [hkk]

theorem putNode_collision_none (key k : Keyword) (M : Int)
    (hkstr : k.str = key.str) :
    ∀ rem now p, rem ≤ key.str.length →
      p = key.str.take (key.str.length - rem) →
      SInv M p now → k ∈ now.subKWs →
      putNode key M rem now = none := by
  intro rem
  induction rem with
  | zero =>
    intro now p hrem hp hs hmem
    obtain ⟨nk, nn, ns⟩ := now
    have hp' : p = key.str := by rw [hp, Nat.sub_zero, List.take_length]
    subst hp'
    rw [SInv_def] at hs
    obtain ⟨hkey, htop, hdk, hl⟩ := hs
    rw [subKWs_mk] at hmem
    rcases List.mem_append.mp hmem with h1 | h1
    · cases nk with
      | none => cases h1
      | some k2 =>
        have hk2 : k = k2 := by simpa using h1
        simp only [putNode, Node.key]
        rw [if_neg]
        rw [← hk2, hkstr]
        omega
    · obtain ⟨r, ch, hch, hkch⟩ := subKWsList_mem h1
      have hpref := (SInvL_mem hl hch).2 k hkch
      have hlen := prefLength hpref
      rw [List.length_append, List.length_singleton, hkstr] at hlen
      omega
  | succ rem ih =>
    intro now p hrem hp hs hmem
    obtain ⟨nk, nn, ns⟩ := now
    have hs0 := hs
    rw [SInv_def] at hs
    obtain ⟨hkey, htop, hdk, hl⟩ := hs
    have hlen1 : 1 ≤ key.str.length := by omega
    have hplen : p.length = key.str.length - (rem + 1) := by
      rw [hp, List.length_take]
      omega
    rw [subKWs_mk] at hmem
    by_cases hempty : nn = []
    · subst hempty
      cases nk with
      | none => exact absurd rfl hkey
      | some k2 =>
        have hk2 : k = k2 := by
          rcases List.mem_append.mp hmem with h1 | h1
          · simpa using h1
          · cases h1
        simp only [putNode, Node.next, Node.key, List.isEmpty_nil, if_true]
        exact splitChain_collision_none key k2 M hlen1 (hk2 ▸ hkstr) _ _
    · have hnnE : nn.isEmpty = false := by
        cases nn with
        | nil => exact absurd rfl hempty
        | cons a b => rfl
      rcases List.mem_append.mp hmem with h1 | h1
      · cases nk with
        | none => cases h1
        | some k2 =>
          have hk2 : k = k2 := by simpa using h1
          have hl2 := hkey.2.2 hempty
          rw [← hk2, hkstr] at hl2
          omega
      · obtain ⟨r, ch, hch, hkch⟩ := subKWsList_mem h1
        have hchInv := SInvL_mem hl hch
        have hpref := hchInv.2 k hkch
        rw [hkstr] at hpref
        have hat := prefRuneAt hpref
        have hr : key.str.getD (key.str.length - (rem + 1)) 0 = r := by
          rw [← hplen]
          exact hat.1
        have hlook2 : lookupA (key.str.getD (key.str.length - (rem + 1)) 0) nn
            = some ch := by
          rw [hr]
          exact lookupA_of_mem hdk hch
        have hrec := ih ch (p ++ [r]) (by omega) ?_ hchInv.1 hkch
        · simp only [putNode, Node.next, Node.key, hnnE, Bool.false_eq_true,
            if_false, hlook2, hrec]
        · have h1 : key.str.length - rem = (key.str.length - (rem + 1)) + 1 := by omega
          rw [h1, takeSucc key.str _ (by omega), ← hp, hr]

theorem subKWs_key_none {n : Node} (h : n.key = none) :
    n.subKWs = subKWsList n.next := by
  obtain ⟨k, c, s⟩ := n
  rw [Node.key] at h
  subst h
  rw [subKWs_mk, Node.next]
  rfl

theorem root_subKW_wf {M : Int} {t : TireKWP} (hR : RootInv M t) :
    ∀ k ∈ t.root.subKWs, KwWF k := by
  intro k hk
  rw [subKWs_key_none hR.2.1] at hk
  obtain ⟨c, n, hcn, hkn⟩ := subKWsList_mem hk
  exact SInv_subKW_wf n _ (SInvL_mem hR.2.2.2.1 hcn).1 k hkn

theorem root_subKW_pairwiseStr {M : Int} {t : TireKWP} (hR : RootInv M t) :
    List.Pairwise (fun a b : Keyword => a.Str ≠ b.Str) t.root.subKWs := by
  have h1 : List.Pairwise (fun a b : Keyword => a.str ≠ b.str) t.root.subKWs := by
    rw [subKWs_key_none hR.2.1]
    exact subKWsList_pairwise hR.2.2.1 hR.2.2.2.1
      (fun c n hcn => SInv_subKW_pairwise n _ (SInvL_mem hR.2.2.2.1 hcn).1)
  refine List.Pairwise.imp_of_mem ?_ h1
  intro a b ha hb hne heq
  have ha' := (root_subKW_wf hR a ha).1
  have hb' := (root_subKW_wf hR b hb).1
  exact hne (by rw [ha', hb', heq])

theorem putK_root {M : Int} {t : TireKWP} (hM : 1 ≤ M) (hR : RootInv M t)
    {key : Keyword} (hwf : KwWF key)
    (hcol : ∀ k ∈ t.root.subKWs, k.str ≠ key.str) :
    ∃ t', t.putK key = some t' ∧ t'.maxSortedLen = t.maxSortedLen ∧
      t'.len = t.len ∧ t'.root.key = none ∧
      List.Pairwise (fun a b : Nat × Node => a.1 ≠ b.1) t'.root.next ∧
      SInvL M [] t'.root.next ∧
      (WSmallL t'.root.subKWs → TopOK M t'.root.sorted t'.root.subKWs) ∧
      List.Perm t'.root.subKWs (key :: t.root.subKWs) := by
  obtain ⟨hMS, hrk, hdk, hl, htop, hlen⟩ := hR
  have hR' : RootInv M t := ⟨hMS, hrk, hdk, hl, htop, hlen⟩
  have htopA : ∀ S', List.Perm S' (key :: t.root.subKWs) →
      WSmallL S' → TopOK M (adjustSorted key M t.root.sorted) S' := by
    intro S' hperm hws
    have hws' : WSmallL (key :: t.root.subKWs) :=
      fun j hj => hws j (hperm.mem_iff.mpr hj)
    have hk : WSmall key := hws' key (List.mem_cons_self _ _)
    have hwsold : WSmallL t.root.subKWs :=
      fun j hj => hws' j (List.mem_cons_of_mem _ hj)
    have hfresh : ∀ j ∈ t.root.subKWs, j.Str ≠ key.Str := fun j hj =>
      KwStrne (root_subKW_wf hR' j hj) hwf (hcol j hj)
    have hres := TopOK_adjust (htop hwsold) hfresh hk hwsold
      (root_subKW_pairwiseStr hR')
    exact TopOK_perm_right hres hperm.symm
  obtain ⟨c0, rest, hstr⟩ : ∃ c0 rest, key.str = c0 :: rest := by
    cases hs : key.str with
    | nil => exact absurd hs hwf.2
    | cons a b => exact ⟨a, b, rfl⟩
  have hc0pre : [c0] <+: key.str := by
    rw [hstr]
    exact ⟨rest, rfl⟩
  cases hlook : lookupA c0 t.root.next with
  | none =>
    have heq : t.putK key = some { t with
        root := Node.mk t.root.key
          (insertA c0 (newNode (some key)) t.root.next)
          (adjustSorted key M t.root.sorted),
        nNodes := t.nNodes + 1 } := by
      simp only [TireKWP.putK, hstr, hlook, hMS]
    refine ⟨_, heq, rfl, rfl, hrk, insertA_pairwise hdk, ?_, ?_, ?_⟩
    · refine SInvL_insertA hl ?_ ?_
      · rw [newNode_some, SInv_def]
        exact ⟨⟨hwf, hc0pre, fun h0 => absurd rfl h0⟩,
          fun _ => TopOK_single hM key, List.Pairwise.nil, trivial⟩
      · intro k hk
        have hkk : k = key := by
          simpa [subKWs_mk, subKWsList, newNode] using hk
        rw [hkk]
        exact hc0pre
    · have hsub : (Node.mk t.root.key
          (insertA c0 (newNode (some key)) t.root.next)
          (adjustSorted key M t.root.sorted)).subKWs
          = subKWsList t.root.next ++ [key] := by
        rw [subKWs_mk, subKWsList_insertA_none hlook, hrk]
        rfl
      intro hws
      refine htopA _ ?_ ?_
      · rw [hsub, subKWs_key_none hrk]
        exact perm_snoc _ key
      · exact hws
    · have hsub : (Node.mk t.root.key
          (insertA c0 (newNode (some key)) t.root.next)
          (adjustSorted key M t.root.sorted)).subKWs
          = subKWsList t.root.next ++ [key] := by
        rw [subKWs_mk, subKWsList_insertA_none hlook, hrk]
        rfl
      rw [hsub, subKWs_key_none hrk]
      exact perm_snoc _ key
  | some child =>
    have hcn := lookupA_mem hlook
    have hchInv := SInvL_mem hl hcn
    have hlen1 : 1 ≤ key.str.length := by
      rw [hstr]
      simp
    have hc0getD : key.str.getD 0 0 = c0 := by
      rw [hstr]
      rfl
    obtain ⟨child', cnt, hput, hsinv', hperm'⟩ :=
      putNode_SInv key M hM hwf (key.str.length - 1) child [c0]
        (by omega)
        (by
          have h1 : key.str.length - (key.str.length - 1) = 1 := by omega
          rw [h1, hstr]
          rfl)
        hchInv.1
        (fun k hk => hcol k (by
          rw [subKWs_key_none hrk]
          exact subKWsList_mem_of hcn hk))
    obtain ⟨l1, l2, hnn12, hins12⟩ := lookupA_split hlook child'
    have hsub : (Node.mk t.root.key (insertA c0 child' t.root.next)
        (adjustSorted key M t.root.sorted)).subKWs
        = subKWsList l1 ++ (child'.subKWs ++ subKWsList l2) := by
      rw [subKWs_mk, hins12, subKWsList_append, subKWsList, hrk]
      rfl
    have hold : subKWsList t.root.next
        = subKWsList l1 ++ (child.subKWs ++ subKWsList l2) := by
      rw [hnn12, subKWsList_append, subKWsList]
    have hperm2 : List.Perm
        (subKWsList l1 ++ (child'.subKWs ++ subKWsList l2))
        (key :: (subKWsList l1 ++ (child.subKWs ++ subKWsList l2))) := by
      refine List.Perm.trans
        ((hperm'.append_right (subKWsList l2)).append_left (subKWsList l1)) ?_
      exact List.perm_middle
    have hput2 : putNode key M ((c0 :: rest).length - 1) child
        = some (child', cnt) := by
      rw [← hstr]
      exact hput
    have heq : t.putK key = some { t with
        root := Node.mk t.root.key (insertA c0 child' t.root.next)
          (adjustSorted key M t.root.sorted),
        nNodes := t.nNodes + (cnt : Int) } := by
      simp only [TireKWP.putK, hstr, hMS, hlook, hput2]
    refine ⟨_, heq, rfl, rfl, hrk, insertA_pairwise hdk, ?_, ?_, ?_⟩
    · exact SInvL_insertA hl hsinv' (SInv_subKW_pref hsinv')
    · intro hws
      refine htopA _ ?_ hws
      rw [hsub, subKWs_key_none hrk, hold]
      exact hperm2
    · rw [hsub, subKWs_key_none hrk, hold]
      exact hperm2
